import Mathlib

/-!
# Verification of the orchestration core of `auto`

A shallow embedding of the Go sources `worker/solve.go`, `worker/processed.go`,
`worker/worker.go` and `main/main.go`.

Conventions of the embedding.

* A Go `string` is a `List Char` (the texts are taken to be valid UTF-8; every
  character the code inspects is matched code point by code point).
* Go's `int` is the 64-bit signed integer; values are carried in `Int` and the
  range `[-2^63, 2^63 - 1]` is checked where the code can leave it
  (`strconv.Atoi`, `json.Unmarshal`).
* A Go `map[int]T` in which only the key set matters is the list of its keys,
  without duplicates.  A `for k := range m` loop visits the keys in an order the
  runtime chooses; the embedding takes that order as a parameter
  `rangeOrder : List Int → List Int` which rearranges the keys.
* Calls that leave the process (browser automation, HTTP, the file system, the
  generation service) are parameters of the embedded function: the caller
  supplies the outcome of each call and the function returns, besides its Go
  result, the trace of the calls it made.
-/

namespace Auto

/-! ## Definitions -/

/-! ### Standard-library functions used by the sources -/

/-- Largest value of Go's `int` (64-bit target). -/
def maxInt : Int := 2 ^ 63 - 1

/-- Smallest value of Go's `int` (64-bit target). -/
def minInt : Int := -(2 ^ 63)

/-- Value of an ASCII digit. -/
def digitVal (c : Char) : Nat := c.toNat - 48

/-- Number denoted by a string of ASCII digits, read in base ten. -/
def decVal (ds : List Char) : Nat := ds.foldl (fun a c => 10 * a + digitVal c) 0

/-- Whether a string is a non-empty string of ASCII digits. -/
def isDigitString (ds : List Char) : Bool := !ds.isEmpty && ds.all Char.isDigit

/-- Go `strconv.ParseInt(s, 10, 64)`: an optional sign followed by one or more
ASCII digits; `none` stands for the syntax error and for the range error. -/
def ParseInt (s : List Char) : Option Int :=
  match s with
  | '-' :: ds =>
    if isDigitString ds && decide (minInt ≤ -(decVal ds : Int)) then some (-(decVal ds : Int))
    else none
  | '+' :: ds =>
    if isDigitString ds && decide ((decVal ds : Int) ≤ maxInt) then some (decVal ds : Int)
    else none
  | ds =>
    if isDigitString ds && decide ((decVal ds : Int) ≤ maxInt) then some (decVal ds : Int)
    else none

/-- Go `strconv.Atoi(s)`, which is `ParseInt(s, 10, 0)` narrowed to `int`. -/
def Atoi (s : List Char) : Option Int := ParseInt s

/-- Scanner behind `findAllDigits`; the first argument bounds the number of
steps and is never exhausted when it is at least the length of the text. -/
def findAllDigitsAux : Nat → List Char → List (List Char)
  | 0, _ => []
  | _ + 1, [] => []
  | fuel + 1, c :: cs =>
    if c.isDigit then
      (c :: cs.takeWhile Char.isDigit) :: findAllDigitsAux fuel (cs.dropWhile Char.isDigit)
    else findAllDigitsAux fuel cs

/-- Go `regexp.MustCompile("\\d+").FindAllString(s, -1)`: the successive
leftmost, greedy, non-overlapping matches of one or more ASCII digits. -/
def findAllDigits (s : List Char) : List (List Char) := findAllDigitsAux s.length s

/-- Go `m[k] = v` on a map of which only the keys are kept. -/
def mapInsert (m : List Int) (k : Int) : List Int := if k ∈ m then m else m ++ [k]

/-- Go `sort.Ints`. -/
def sortInts (l : List Int) : List Int := l.insertionSort (· ≤ ·)

/-- A `rangeOrder` is admissible when it only rearranges the keys. -/
def IsRangeOrder (rangeOrder : List Int → List Int) : Prop :=
  ∀ keys, (rangeOrder keys).Perm keys

/-! ### `worker/solve.go`: `ParseSolvedTasks` -/

/-- Body of the first loop of `ParseSolvedTasks`: one match `f` is converted and,
when the conversion succeeds with a positive value, stored in the set. -/
def parseStep (set : List Int) (f : List Char) : List Int :=
  match Atoi f with
  | some n => if n > 0 then mapInsert set n else set
  | none => set

/-- Embedding of `ParseSolvedTasks` (solve.go, lines 17-32). -/
def ParseSolvedTasks (rangeOrder : List Int → List Int) (s : List Char) : List Int :=
  let found := findAllDigits s
  let set := found.foldl parseStep []
  let res := rangeOrder set
  sortInts res

/-! ### Standard-library functions: strings and JSON -/

/-- Go `strings.Contains(s, substr)`. -/
def Contains : List Char → List Char → Bool
  | [], substr => substr.isEmpty
  | c :: cs, substr => substr.isPrefixOf (c :: cs) || Contains cs substr

/-- Go `unicode.IsSpace`: the characters `strings.TrimSpace` removes. -/
def isSpace (c : Char) : Bool :=
  c == '\t' || c == '\n' || c == Char.ofNat 0x0B || c == Char.ofNat 0x0C || c == '\r' ||
  c == ' ' || c == Char.ofNat 0x85 || c == Char.ofNat 0xA0 || c == Char.ofNat 0x1680 ||
  (0x2000 ≤ c.toNat && c.toNat ≤ 0x200A) || c == Char.ofNat 0x2028 ||
  c == Char.ofNat 0x2029 || c == Char.ofNat 0x202F || c == Char.ofNat 0x205F ||
  c == Char.ofNat 0x3000

/-- Removal of the leading and trailing characters that satisfy `p`. -/
def trimBoth (p : Char → Bool) (s : List Char) : List Char :=
  ((s.dropWhile p).reverse.dropWhile p).reverse

/-- Go `strings.TrimSpace`. -/
def TrimSpace (s : List Char) : List Char := trimBoth isSpace s

/-- Character of a decimal digit `d < 10`. -/
def digitChar (d : Nat) : Char := Char.ofNat (48 + d)

/-- Decimal digits of a natural number, most significant first; the first
argument bounds the number of digits and `n + 1` is always enough. -/
def formatNatAux : Nat → Nat → List Char
  | 0, _ => []
  | fuel + 1, n =>
    if n < 10 then [digitChar n] else formatNatAux fuel (n / 10) ++ [digitChar (n % 10)]

/-- Decimal representation of a natural number. -/
def formatNat (n : Nat) : List Char := formatNatAux (n + 1) n

/-- Go `strconv.FormatInt(n, 10)`, the text `json.Marshal` writes for an `int`. -/
def FormatInt (n : Int) : List Char :=
  if n < 0 then '-' :: formatNat n.natAbs else formatNat n.toNat

/-- Go `json.Marshal(tasks)` for `tasks []int`: `null` for the nil slice,
otherwise the elements in decimal, separated by commas, in square brackets.
The call cannot fail for this type. -/
def jsonMarshalInts (tasks : List Int) : List Char :=
  match tasks with
  | [] => "null".toList
  | _ => '[' :: ([','].intercalate (tasks.map FormatInt) ++ [']'])

/-- The four characters JSON treats as insignificant whitespace. -/
def isJSONSpace (c : Char) : Bool := c == ' ' || c == '\t' || c == '\r' || c == '\n'

/-- The digits of a JSON integer: `0`, or a non-zero digit followed by digits. -/
def isJSONNatLiteral : List Char → Bool
  | [] => false
  | c :: cs => (c == '0' && cs.isEmpty) || (c != '0' && c.isDigit && cs.all Char.isDigit)

/-- A JSON number without fraction and exponent: `-?(0|[1-9][0-9]*)`. -/
def isJSONIntLiteral : List Char → Bool
  | '-' :: ds => isJSONNatLiteral ds
  | ds => isJSONNatLiteral ds

/-- How `json.Unmarshal` stores one array element into an `int`: the literal
`null` leaves the zero value, a number must be accepted by
`strconv.ParseInt(literal, 10, 64)`, every other value is a type error. -/
def decodeElem (elem : List Char) : Option Int :=
  if elem = "null".toList then some 0
  else if isJSONIntLiteral elem then ParseInt elem
  else none

/-- Decoding of the comma-separated pieces of an array body. -/
def decodeElems : List (List Char) → Option (List Int)
  | [] => some []
  | piece :: rest =>
    match decodeElem (trimBoth isJSONSpace piece), decodeElems rest with
    | some n, some ns => some (n :: ns)
    | _, _ => none

/-- Go `json.Unmarshal(data, &tasks)` for `var tasks []int`; `none` stands for
a returned error (a syntax error or a type error).  The texts accepted for
this target are the literal `null`, which leaves `tasks` nil, and an array
whose elements are integer literals in the `int` range or `null`, with
optional whitespace around every token. -/
def jsonUnmarshalInts (data : List Char) : Option (List Int) :=
  let t := trimBoth isJSONSpace data
  if t = "null".toList then some []
  else
    match t with
    | '[' :: rest =>
      match rest.reverse with
      | ']' :: body =>
        if body.all isJSONSpace then some []
        else decodeElems (body.reverse.splitOn ',')
      | _ => none
    | _ => none

/-! ### `worker/processed.go` -/

/-- The package variables `processedTasks` and `processedLoaded`.  Every value
stored in the map `processedTasks` is `true`, so the map is kept as the list of
its keys. -/
structure Store where
  processedTasks : List Int
  processedLoaded : Bool
deriving DecidableEq, Repr

/-- The backing file `../processed_tasks.json` as the calls of processed.go
see it. -/
inductive File where
  /-- `os.Stat` reports that the file does not exist. -/
  | absent
  /-- The file is there (or `os.Stat` fails otherwise) and `ioutil.ReadFile` fails. -/
  | unreadable
  /-- The file is there and holds `data`. -/
  | content (data : List Char)
deriving DecidableEq, Repr

/-- The errors the functions of processed.go return. -/
inductive StoreError where
  | read
  | unmarshal
  | write
deriving DecidableEq, Repr

/-- How one `ioutil.WriteFile` call goes.  The call opens the file with
`O_WRONLY|O_CREATE|O_TRUNC` and then writes the data. -/
inductive WriteOutcome where
  /-- All the data reaches the file. -/
  | ok
  /-- The file cannot be opened; it is left as it was. -/
  | openFails
  /-- The file is truncated and the write stops after `written` characters. -/
  | writeFails (written : Nat)
deriving DecidableEq, Repr

/-- Go `ioutil.WriteFile(processedTasksFile, data, 0644)`. -/
def WriteFile (file : File) (data : List Char) : WriteOutcome → File × Option StoreError
  | .ok => (.content data, none)
  | .openFails => (file, some .write)
  | .writeFails written => (.content (data.take written), some .write)

/-- Embedding of `LoadProcessedTasks` (processed.go, lines 18-51): the new
store and the returned error (`none` for `nil`). -/
def LoadProcessedTasks (st : Store) (file : File) : Store × Option StoreError :=
  if st.processedLoaded then (st, none)
  else
    let st1 : Store := { st with processedTasks := [] }
    match file with
    | .absent => ({ st1 with processedLoaded := true }, none)
    | .unreadable => (st1, some .read)
    | .content data =>
      match (if data.length > 0 then jsonUnmarshalInts data else some []) with
      | none => (st1, some .unmarshal)
      | some tasks =>
        ({ processedTasks := tasks.foldl mapInsert st1.processedTasks,
           processedLoaded := true }, none)

/-- Embedding of `IsProcessed` (processed.go, lines 53-57). -/
def IsProcessed (st : Store) (taskID : Int) : Bool := decide (taskID ∈ st.processedTasks)

/-- Embedding of `MarkAsProcessed` (processed.go, lines 59-76): the new
store, the new state of the backing file and the returned error. -/
def MarkAsProcessed (rangeOrder : List Int → List Int) (taskID : Int) (st : Store)
    (file : File) (w : WriteOutcome) : Store × File × Option StoreError :=
  let st1 : Store := { st with processedTasks := mapInsert st.processedTasks taskID }
  let tasks := rangeOrder st1.processedTasks
  let data := jsonMarshalInts tasks
  let r := WriteFile file data w
  (st1, r.1, r.2)

/-- Embedding of `GetProcessedTasks` (processed.go, lines 78-87). -/
def GetProcessedTasks (rangeOrder : List Int → List Int) (st : Store) : List Int :=
  rangeOrder st.processedTasks

/-! ### `worker/worker.go`: generation with fallback -/

/-- The type `Example` of worker.go. -/
structure Example where
  Input : List Char
  Output : List Char
deriving DecidableEq, Repr

/-- The type `Task` of worker.go. -/
structure Task where
  ID : Int
  Name : List Char
  Description : List Char
  Complexity : Int
  Memory : Int
  Time : Int
  Examples : List Example
deriving DecidableEq, Repr

/-- The arguments of one call of `generateCode`. -/
structure GenCall where
  task : Task
  apiKey : List Char
  model : List Char
  maxTokens : Int
deriving DecidableEq, Repr

/-- What a Go function of result type `(string, error)` returns; the error is
kept as the text of `err.Error()`, `none` for `nil`. -/
abbrev StrResult := List Char × Option (List Char)

/-- Embedding of `generateCodeWithFallback` (worker.go, lines 54-66).  The
remote call `generateCode` is the parameter of that name; the function returns
its Go result together with the list of the calls of `generateCode` it made,
in the order it made them. -/
def generateCodeWithFallback (generateCode : GenCall → StrResult) (task : Task)
    (apiKey model fallbackModel : List Char) (maxTokens : Int) : StrResult × List GenCall :=
  let primary : GenCall := ⟨task, apiKey, model, maxTokens⟩
  let r := generateCode primary
  match r.2 with
  | some errStr =>
    if fallbackModel ≠ [] ∧ fallbackModel ≠ model then
      if Contains errStr "402".toList || Contains errStr "more credits".toList ||
          Contains errStr "requires more credits".toList then
        let retry : GenCall := ⟨task, apiKey, fallbackModel, 5000⟩
        (generateCode retry, [primary, retry])
      else (r, [primary])
    else (r, [primary])
  | none => (r, [primary])

/-- The fallback model `New` passes (worker.go, line 181). -/
def fallbackModel : List Char := "kwaipilot/kat-coder-pro:free".toList

/-- The output-token budget `New` passes for the primary call (worker.go, line 183). -/
def primaryMaxTokens : Int := 16000

/-- The generation step of `New` (worker.go, lines 181-186): the call of
`generateCodeWithFallback` with the constants of the workflow. -/
def newGenerate (generateCode : GenCall → StrResult) (task : Task) (apiKey model : List Char) :
    StrResult × List GenCall :=
  generateCodeWithFallback generateCode task apiKey model fallbackModel primaryMaxTokens

/-! ### `worker/worker.go` and `main/main.go`: the sweep -/

/-- What one call of `worker.New` does as far as the orchestrator can observe
it.  `New` is straight-line code: every unrecovered failure before line 363 ends
the process through `log.Fatal`; otherwise line 363 calls `MarkAsProcessed`,
whose error is only logged. -/
inductive NewOutcome where
  /-- Some step ran into `log.Fatal`: the process exits inside `New`. -/
  | fatal
  /-- The solution was submitted; the write of `MarkAsProcessed` goes as `w`. -/
  | submitted (w : WriteOutcome)
deriving DecidableEq, Repr

/-- Effect of `worker.New(..., taskID)` on the processed store and its file;
`none` when the process exits inside the call. -/
def New (rangeOrder : List Int → List Int) (outcome : NewOutcome) (taskID : Int)
    (st : Store) (file : File) : Option (Store × File) :=
  match outcome with
  | .fatal => none
  | .submitted w =>
    let r := MarkAsProcessed rangeOrder taskID st file w
    some (r.1, r.2.1)

/-- The inner loop of `main` (main.go, lines 66-72): whether `taskID` occurs
in `alreadySolved`. -/
def isSolved (alreadySolved : List Int) (taskID : Int) : Bool :=
  alreadySolved.any (fun id => id == taskID)

/-- What a sweep leaves behind: the identifiers `worker.New` was called for, in
call order, and the final store and file, `none` when the process exited
inside a call of `worker.New`. -/
structure Sweep where
  invoked : List Int
  final : Option (Store × File)
deriving DecidableEq, Repr

/-- The loop `for taskID := ...; taskID <= last; taskID++` of `main` (main.go,
lines 65-85) with `count` iterations left, the next one for `taskID`.
`outcomes taskID` is how the call `worker.New(..., taskID)` goes. -/
def mainLoop (rangeOrder : List Int → List Int) (outcomes : Int → NewOutcome)
    (alreadySolved : List Int) : Nat → Int → Store → File → Sweep
  | 0, _, st, file => ⟨[], some (st, file)⟩
  | count + 1, taskID, st, file =>
    if isSolved alreadySolved taskID then
      mainLoop rangeOrder outcomes alreadySolved count (taskID + 1) st file
    else if IsProcessed st taskID then
      mainLoop rangeOrder outcomes alreadySolved count (taskID + 1) st file
    else
      match New rangeOrder (outcomes taskID) taskID st file with
      | none => ⟨[taskID], none⟩
      | some (st1, file1) =>
        let rest := mainLoop rangeOrder outcomes alreadySolved count (taskID + 1) st1 file1
        ⟨taskID :: rest.invoked, rest.final⟩

/-- The sweep of `main` over the identifiers `1, ..., last`; in main.go `last`
is the constant 1000. -/
def mainSweep (rangeOrder : List Int → List Int) (outcomes : Int → NewOutcome)
    (alreadySolved : List Int) (last : Nat) (st : Store) (file : File) : Sweep :=
  mainLoop rangeOrder outcomes alreadySolved last 1 st file

/-- The upper end of the range `main` sweeps (main.go, line 65). -/
def lastTaskID : Nat := 1000

/-- The identifiers `1, ..., last` in ascending order. -/
def idRange (last : Nat) : List Int := (List.range' 1 last).map Int.ofNat

/-! ### `worker/solve.go`: `FetchSolvedText` -/

/-- Go `strings.ReplaceAll(body, "\u00A0", " ")`: every no-break space becomes a space. -/
def replaceNBSP (body : List Char) : List Char :=
  body.map (fun c => if c = Char.ofNat 0xA0 then ' ' else c)

/-- Go `strings.Join(elems, sep)`. -/
def Join (elems : List (List Char)) (sep : List Char) : List Char := sep.intercalate elems

/-- Lower-case form of a character under simple case folding, for the Latin
letters `A`-`Z` and the Cyrillic letters U+0400-U+042F.  Two characters the
patterns of solve.go contain match under the flag `(?i)` exactly when their
lower-case forms agree. -/
def toLowerFold (c : Char) : Char :=
  if 0x41 ≤ c.toNat ∧ c.toNat ≤ 0x5A then Char.ofNat (c.toNat + 32)
  else if 0x410 ≤ c.toNat ∧ c.toNat ≤ 0x42F then Char.ofNat (c.toNat + 32)
  else if 0x400 ≤ c.toNat ∧ c.toNat ≤ 0x40F then Char.ofNat (c.toNat + 80)
  else c

/-- Match of the literal `pat` at the start of `text`, ignoring case; the
result is the text after the match. -/
def matchFold : List Char → List Char → Option (List Char)
  | [], text => some text
  | _ :: _, [] => none
  | p :: ps, c :: cs => if toLowerFold c = toLowerFold p then matchFold ps cs else none

/-- Match of the literal `pat` at the start of `text`; the result is the text
after the match. -/
def matchLiteral : List Char → List Char → Option (List Char)
  | [], text => some text
  | _ :: _, [] => none
  | p :: ps, c :: cs => if c = p then matchLiteral ps cs else none

/-- The alternatives of the first group of `reSection`, in the order of the
pattern. -/
def sectionKeywords : List (List Char) :=
  ["Решен".toList, "Решён".toList, "Решенные".toList, "Решённые".toList, "решен".toList,
    "решё".toList]

/-- The alternatives of the closing tag of `reSection`. -/
def closingTags : List (List Char) :=
  ["</p>".toList, "</td>".toList, "</div>".toList, "</li>".toList]

/-- Whether `</(p|td|div|li)>` matches at the start of `text`, ignoring case. -/
def matchClose (text : List Char) : Bool :=
  closingTags.any (fun tag => (matchFold tag text).isSome)

/-- The lazy group `(.*?)` of `reSection` followed by the closing tag: the
shortest prefix of `text` directly before a closing tag. -/
def lazyUntilClose : List Char → Option (List Char)
  | [] => none
  | c :: cs => if matchClose (c :: cs) then some [] else (lazyUntilClose cs).map (fun m => c :: m)

/-- The first keyword, in pattern order, that matches at the start of `text`
and is followed somewhere by a closing tag; the result is the second group. -/
def matchSectionWith : List (List Char) → List Char → Option (List Char)
  | [], _ => none
  | kw :: kws, text =>
    match (matchFold kw text).bind lazyUntilClose with
    | some m => some m
    | none => matchSectionWith kws text

/-- Go `reSection.FindStringSubmatch(body)` for `reSection` the pattern
`(?is)(Решен|Решён|Решенные|Решённые|решен|решё)(.*?)</(p|td|div|li)>`: the
second group `m[2]` of the leftmost match, `none` when there is no match. -/
def findSection : List Char → Option (List Char)
  | [] => none
  | c :: cs =>
    match matchSectionWith sectionKeywords (c :: cs) with
    | some m => some m
    | none => findSection cs

/-- The class `\s` of Go regular expressions. -/
def isReSpace (c : Char) : Bool :=
  c == '\t' || c == '\n' || c == Char.ofNat 0x0C || c == '\r' || c == ' '

/-- Match of `<a[^>]*>\s*([0-9]{1,6})\s*</a>` at the start of `text`: the
group and the text after the match. -/
def matchAnchorAt (text : List Char) : Option (List Char × List Char) :=
  match matchLiteral "<a".toList text with
  | none => none
  | some t1 =>
    match t1.dropWhile (fun c => c != '>') with
    | [] => none
    | _ :: t3 =>
      let t4 := t3.dropWhile isReSpace
      let digits := t4.takeWhile Char.isDigit
      let t5 := t4.dropWhile Char.isDigit
      if 1 ≤ digits.length ∧ digits.length ≤ 6 then
        match matchLiteral "</a>".toList (t5.dropWhile isReSpace) with
        | some rest => some (digits, rest)
        | none => none
      else none

/-- Scanner behind `findAllAnchors`; the first argument bounds the number of
steps and the length of the text is always enough. -/
def findAllAnchorsAux : Nat → List Char → List (List Char)
  | 0, _ => []
  | _ + 1, [] => []
  | fuel + 1, c :: cs =>
    match matchAnchorAt (c :: cs) with
    | some (digits, rest) => digits :: findAllAnchorsAux fuel rest
    | none => findAllAnchorsAux fuel cs

/-- Go `reAnchors.FindAllStringSubmatch(body, -1)` for `reAnchors` the pattern
`<a[^>]*>\s*([0-9]{1,6})\s*</a>`, reduced to the first group `sub[1]` of
every match, which is what the loop of lines 138-142 collects. -/
def findAllAnchors (body : List Char) : List (List Char) := findAllAnchorsAux body.length body

/-- The error of line 151. -/
def notFoundError : List Char := "не удалось найти список решённых задач на странице".toList

/-- Lines 122-153 of `FetchSolvedText`: the three extractions from the
fetched document. -/
def extractSolved (bodyBytes : List Char) : StrResult :=
  let body := replaceNBSP bodyBytes
  let fromSection : Option (List Char) :=
    match findSection body with
    | some sectionText =>
      let found := findAllDigits sectionText
      if found.length > 0 then some (Join found " ".toList) else none
    | none => none
  match fromSection with
  | some text => (text, none)
  | none =>
    let parts := findAllAnchors body
    if parts.length > 0 then (Join parts " ".toList, none)
    else
      let allNums := findAllDigits body
      if allNums.length = 0 then ([], some notFoundError)
      else (Join allNums " ".toList, none)

/-- How the HTTP request of the third tier goes. -/
inductive HTTPOutcome where
  /-- `httpClient.Get` returns the error `err`. -/
  | getFails (err : List Char)
  /-- A response with the given status code and status line arrives;
  `body` is what `io.ReadAll(resp.Body)` returns. -/
  | response (statusCode : Int) (status : List Char) (body : StrResult)
deriving DecidableEq, Repr

/-- Lines 105-153 of `FetchSolvedText`: the raw HTTP tier. -/
def httpTier (http : HTTPOutcome) : StrResult :=
  match http with
  | .getFails err => ([], some err)
  | .response statusCode status body =>
    if statusCode ≥ 400 then ([], some ("http fallback returned status ".toList ++ status))
    else
      match body.2 with
      | some err => ([], some err)
      | none => extractSolved body.1

/-- What one `chromedp.Run` of `FetchSolvedText` leaves behind: the returned
error (`none` for `nil`) and the content of the variable `solvedText`. -/
structure RunResult where
  err : Option (List Char)
  solvedText : List Char
deriving DecidableEq, Repr

/-- The calls of `FetchSolvedText` that leave the process. -/
inductive FetchEvent where
  /-- The `chromedp.Run` of the structural-selector tier, attempt index and
  timeout in seconds. -/
  | selectorRun (attempt : Nat) (timeoutSeconds : Nat)
  /-- The `chromedp.Run` of the scripted-scan tier, attempt index and timeout
  in seconds. -/
  | jsScanRun (attempt : Nat) (timeoutSeconds : Nat)
  /-- The call `time.Sleep` for the given number of seconds. -/
  | sleep (seconds : Nat)
  /-- The call `httpClient.Get(userURL)`. -/
  | httpGet
deriving DecidableEq, Repr

/-- The outcomes of the calls `FetchSolvedText` can make: of the selector run
and of the scripted-scan run of each attempt index, and of the HTTP request. -/
structure FetchEnv where
  selector : Nat → RunResult
  jsScan : Nat → RunResult
  http : HTTPOutcome

/-- The test of lines 50 and 97: the run returned no error and the trimmed
text is not empty. -/
def runSucceeded (r : RunResult) : Bool :=
  r.err.isNone && !(TrimSpace r.solvedText).isEmpty

/-- The loops of lines 36-63 and 83-103: `for attempt, tmo := range timeouts`
with the attempt index `attempt` reached and the timeouts still to try.  The
result is the text returned from inside the loop (`none` when the loop runs to
its end) and the calls made. -/
def attemptLoop (run : Nat → RunResult) (event : Nat → Nat → FetchEvent) :
    Nat → List Nat → Option (List Char) × List FetchEvent
  | _, [] => (none, [])
  | attempt, tmo :: rest =>
    let r := run attempt
    if runSucceeded r then (some r.solvedText, [event attempt tmo])
    else
      let next := attemptLoop run event (attempt + 1) rest
      (next.1, event attempt tmo :: FetchEvent.sleep (attempt + 1) :: next.2)

/-- The result of `FetchSolvedText` and the calls it made, in order. -/
structure Fetched where
  result : StrResult
  trace : List FetchEvent
deriving DecidableEq, Repr

/-- Embedding of `FetchSolvedText` (solve.go, lines 34-154). -/
def FetchSolvedText (env : FetchEnv) : Fetched :=
  let tier1 := attemptLoop env.selector FetchEvent.selectorRun 0 [25, 35]
  match tier1.1 with
  | some solvedText => ⟨(solvedText, none), tier1.2⟩
  | none =>
    let tier2 := attemptLoop env.jsScan FetchEvent.jsScanRun 0 [30, 40]
    match tier2.1 with
    | some solvedText => ⟨(solvedText, none), tier1.2 ++ tier2.2⟩
    | none => ⟨httpTier env.http, tier1.2 ++ tier2.2 ++ [FetchEvent.httpGet]⟩

/-! ### `main/main.go`: the solved set -/

/-- Lines 37-43 of `main`: the list of solved tasks computed from what
`FetchSolvedText` returned; after an error the text is taken to be empty. -/
def mainSolved (rangeOrder : List Int → List Int) (fetched : StrResult) : List Int :=
  let solvedText := if fetched.2.isSome then [] else fetched.1
  ParseSolvedTasks rangeOrder solvedText

/-! ### `worker/worker.go`: trimming of the generated text -/

/-- Go `strings.TrimPrefix(s, prefix)`. -/
def TrimPrefix (s pre : List Char) : List Char :=
  if pre.isPrefixOf s then s.drop pre.length else s

/-- Go `strings.TrimSuffix(s, suffix)`. -/
def TrimSuffix (s suf : List Char) : List Char :=
  if suf.isSuffixOf s then s.take (s.length - suf.length) else s

/-- The marker `New` strips from the start of the generated text (worker.go, line 189). -/
def fenceOpen : List Char := "```cpp".toList

/-- The marker `New` strips from the end of the generated text (worker.go, line 190). -/
def fenceClose : List Char := "```".toList

/-- Lines 188-191 of `New`: the text that is submitted for the generated
text `solution`. -/
def trimSolution (solution : List Char) : List Char :=
  let s1 := TrimSpace solution
  let s2 := TrimPrefix s1 fenceOpen
  let s3 := TrimSuffix s2 fenceClose
  TrimSpace s3

/-! ### Specification vocabulary -/

/-- The string `r` is a maximal run of ASCII digits of `s`: it is non-empty, all
of its characters are digits, and it occurs in `s` with no digit directly
before it and no digit directly after it. -/
def IsMaxDigitRun (s r : List Char) : Prop :=
  r ≠ [] ∧ (∀ c ∈ r, c.isDigit = true) ∧
    ∃ pre post, s = pre ++ r ++ post ∧
      (∀ c, pre.getLast? = some c → c.isDigit = false) ∧
      (∀ c, post.head? = some c → c.isDigit = false)

/-- The arguments of the primary call of `generateCodeWithFallback`. -/
def primaryCall (task : Task) (apiKey model : List Char) (maxTokens : Int) : GenCall :=
  ⟨task, apiKey, model, maxTokens⟩

/-- The arguments of the retry of `generateCodeWithFallback` (worker.go, line 61). -/
def retryCall (task : Task) (apiKey fallbackModel : List Char) : GenCall :=
  ⟨task, apiKey, fallbackModel, 5000⟩

/-- The condition of the specification for a retry: the primary call failed,
a fallback model is configured and differs from the primary model, and the
failure message carries the credit-exhaustion signature, that is, it contains
`402` or `more credits`. -/
def FallbackApplies (primaryResult : StrResult) (model fallbackModel : List Char) : Prop :=
  ∃ msg, primaryResult.2 = some msg ∧ fallbackModel ≠ [] ∧ fallbackModel ≠ model ∧
    (Contains msg "402".toList = true ∨ Contains msg "more credits".toList = true)

/-- A string of JSON whitespace. -/
def IsJSONWs (w : List Char) : Prop := ∀ c ∈ w, isJSONSpace c = true

/-- The integer a JSON integer literal denotes. -/
def intLitValue : List Char → Int
  | '-' :: ds => -(decVal ds : Int)
  | ds => (decVal ds : Int)

/-- The text `piece` is one element of a JSON array of integers, with optional
whitespace around it: the literal `null` (`v = none`) or the JSON integer
literal of an integer `n` of the `int` range (`v = some n`). -/
def IsJSONElem (piece : List Char) (v : Option Int) : Prop :=
  ∃ w1 tok w2, piece = w1 ++ tok ++ w2 ∧ IsJSONWs w1 ∧ IsJSONWs w2 ∧
    ((v = none ∧ tok = "null".toList) ∨
      (isJSONIntLiteral tok = true ∧ v = some (intLitValue tok) ∧
        minInt ≤ intLitValue tok ∧ intLitValue tok ≤ maxInt))

/-- The text `data` is a JSON array whose elements are, in order, the integers
and `null`s `vs`, with optional whitespace around every token. -/
def IsJSONArray (data : List Char) (vs : List (Option Int)) : Prop :=
  ∃ w0 body w3, data = w0 ++ '[' :: body ++ ']' :: w3 ∧ IsJSONWs w0 ∧ IsJSONWs w3 ∧
    ((vs = [] ∧ IsJSONWs body) ∨
      (vs ≠ [] ∧ ∃ pieces, body = [','].intercalate pieces ∧ List.Forall₂ IsJSONElem pieces vs))

/-- The text `data` is the valid serialization of the list of integers `l`: a
JSON array whose elements are the integer literals of `l`. -/
def IsJSONIntArray (data : List Char) (l : List Int) : Prop :=
  IsJSONArray data (l.map some)

/-- The text `data` is the JSON literal `null` with optional whitespace around it. -/
def IsJSONNull (data : List Char) : Prop :=
  ∃ w0 w3, data = w0 ++ "null".toList ++ w3 ∧ IsJSONWs w0 ∧ IsJSONWs w3

/-- A browser run finishes without error with non-empty trimmed text. -/
def Succeeds (r : RunResult) : Prop := r.err = none ∧ TrimSpace r.solvedText ≠ []

/-- The text contains no ASCII digit. -/
def NoDigit (s : List Char) : Prop := ∀ c ∈ s, c.isDigit = false

/-- No tier produces any digit: the text of every browser run and the
document of the HTTP tier contain no digit. -/
def NoTierHasDigits (env : FetchEnv) : Prop :=
  (∀ attempt, NoDigit (env.selector attempt).solvedText) ∧
    (∀ attempt, NoDigit (env.jsScan attempt).solvedText) ∧
    (∀ statusCode status body, env.http = HTTPOutcome.response statusCode status body →
      NoDigit body.1)

/-- None of the four browser runs finishes without error with non-empty
trimmed text. -/
def NoBrowserSuccess (env : FetchEnv) : Prop :=
  ¬ Succeeds (env.selector 0) ∧ ¬ Succeeds (env.selector 1) ∧
    ¬ Succeeds (env.jsScan 0) ∧ ¬ Succeeds (env.jsScan 1)

/-- A string of characters `strings.TrimSpace` removes. -/
def IsSpaces (w : List Char) : Prop := ∀ c ∈ w, isSpace c = true

/-! ## Theorems -/

/-! ### Digit runs and `ParseSolvedTasks` -/

theorem takeWhile_append_of_head {p : Char → Bool} (a b : List Char)
    (ha : ∀ c ∈ a, p c = true) (hb : ∀ c, b.head? = some c → p c = false) :
    (a ++ b).takeWhile p = a := by
  induction a with
  | nil =>
    cases b with
    | nil => rfl
    | cons x xs => simp [List.takeWhile, hb x]
  | cons x xs ih =>
    have hx : p x = true := ha x (by simp)
    simp only [List.cons_append, List.takeWhile_cons, hx, if_true]
    rw [ih (fun c hc => ha c (by simp [hc]))]

theorem dropWhile_append_of_head {p : Char → Bool} (a b : List Char)
    (ha : ∀ c ∈ a, p c = true) (hb : ∀ c, b.head? = some c → p c = false) :
    (a ++ b).dropWhile p = b := by
  induction a with
  | nil =>
    cases b with
    | nil => rfl
    | cons x xs => simp [List.dropWhile, hb x]
  | cons x xs ih =>
    have hx : p x = true := ha x (by simp)
    simp only [List.cons_append, List.dropWhile_cons, hx, if_true]
    exact ih (fun c hc => ha c (by simp [hc]))

theorem head_dropWhile_not {p : Char → Bool} (l : List Char) :
    ∀ c, (l.dropWhile p).head? = some c → p c = false := by
  induction l with
  | nil => simp
  | cons x xs ih =>
    intro c
    by_cases hx : p x = true
    · simp only [List.dropWhile_cons, hx, if_true]; exact ih c
    · simp only [List.dropWhile_cons, hx]
      simp only [Bool.false_eq_true, if_false, List.head?_cons, Option.some.injEq]
      intro h; subst h; simpa using hx

theorem dropWhile_append_of_exists {p : Char → Bool} (a b : List Char)
    (h : ∃ c ∈ a, p c = false) : (a ++ b).dropWhile p = a.dropWhile p ++ b := by
  induction a with
  | nil => simp at h
  | cons x xs ih =>
    by_cases hx : p x = true
    · simp only [List.cons_append, List.dropWhile_cons, hx, if_true]
      apply ih
      obtain ⟨c, hc, hpc⟩ := h
      rcases List.mem_cons.1 hc with rfl | hc
      · rw [hx] at hpc; cases hpc
      · exact ⟨c, hc, hpc⟩
    · simp [List.dropWhile_cons, hx]

theorem getLast?_dropWhile {p : Char → Bool} (a : List Char) (z : Char)
    (hz : a.getLast? = some z) (hpz : p z = false) :
    (a.dropWhile p).getLast? = some z := by
  induction a with
  | nil => simp at hz
  | cons x xs ih =>
    by_cases hx : p x = true
    · simp only [List.dropWhile_cons, hx, if_true]
      apply ih
      cases xs with
      | nil =>
        simp at hz; subst hz; rw [hx] at hpz; cases hpz
      | cons y ys => simpa [List.getLast?_cons_cons] using hz
    · simp only [List.dropWhile_cons, hx]
      simpa using hz

theorem isMaxDigitRun_cons_of_not_digit (c : Char) (cs r : List Char) (hc : c.isDigit = false) :
    IsMaxDigitRun (c :: cs) r ↔ IsMaxDigitRun cs r := by
  constructor
  · rintro ⟨hne, hall, pre, post, hs, hpre, hpost⟩
    refine ⟨hne, hall, ?_⟩
    cases pre with
    | nil =>
      cases r with
      | nil => exact absurd rfl hne
      | cons x xs =>
        simp only [List.nil_append, List.cons_append, List.cons.injEq] at hs
        have := hall x (by simp)
        rw [← hs.1, hc] at this; cases this
    | cons y ys =>
      simp only [List.cons_append, List.cons.injEq] at hs
      refine ⟨ys, post, by simpa using hs.2, ?_, hpost⟩
      intro z hz
      apply hpre z
      cases ys with
      | nil => simp at hz
      | cons w ws => simpa [List.getLast?_cons_cons] using hz
  · rintro ⟨hne, hall, pre, post, hs, hpre, hpost⟩
    refine ⟨hne, hall, c :: pre, post, by simp [hs], ?_, hpost⟩
    intro z hz
    cases pre with
    | nil => simp at hz; subst hz; exact hc
    | cons w ws => exact hpre z (by simpa [List.getLast?_cons_cons] using hz)

theorem isMaxDigitRun_cons_of_digit (c : Char) (cs r : List Char) (hc : c.isDigit = true) :
    IsMaxDigitRun (c :: cs) r ↔
      r = c :: cs.takeWhile Char.isDigit ∨ IsMaxDigitRun (cs.dropWhile Char.isDigit) r := by
  constructor
  · rintro ⟨hne, hall, pre, post, hs, hpre, hpost⟩
    cases pre with
    | nil =>
      left
      cases r with
      | nil => exact absurd rfl hne
      | cons x xs =>
        simp only [List.nil_append, List.cons_append, List.cons.injEq] at hs
        obtain ⟨rfl, rfl⟩ := hs
        rw [takeWhile_append_of_head xs post (fun d hd => hall d (by simp [hd])) hpost]
    | cons y ys =>
      right
      simp only [List.cons_append, List.cons.injEq] at hs
      obtain ⟨rfl, hcs⟩ := hs
      -- the last character of `c :: ys` is not a digit, so `ys` is non-empty
      obtain ⟨z, hz⟩ : ∃ z, ys.getLast? = some z := by
        cases ys with
        | nil =>
          have := hpre c (by simp)
          rw [hc] at this; cases this
        | cons w ws => exact Option.isSome_iff_exists.1 (by simp [List.getLast?_isSome])
      have hzd : z.isDigit = false :=
        hpre z (by
          cases ys with
          | nil => simp at hz
          | cons w ws => simpa [List.getLast?_cons_cons] using hz)
      have hzmem : z ∈ ys := List.mem_of_getLast?_eq_some hz
      refine ⟨hne, hall, ys.dropWhile Char.isDigit, post, ?_, ?_, hpost⟩
      · rw [hcs, List.append_assoc, dropWhile_append_of_exists ys (r ++ post) ⟨z, hzmem, hzd⟩,
          List.append_assoc]
      · intro w hw
        rw [getLast?_dropWhile ys z hz hzd] at hw
        cases hw; exact hzd
  · rintro (rfl | ⟨hne, hall, pre, post, hs, hpre, hpost⟩)
    · refine ⟨by simp, ?_, [], cs.dropWhile Char.isDigit, ?_, by simp, head_dropWhile_not cs⟩
      · intro d hd
        rcases List.mem_cons.1 hd with rfl | hd
        · exact hc
        · exact (List.mem_takeWhile_imp hd)
      · simp [List.takeWhile_append_dropWhile]
    · refine ⟨hne, hall, c :: cs.takeWhile Char.isDigit ++ pre, post, ?_, ?_, hpost⟩
      · have : cs = cs.takeWhile Char.isDigit ++ cs.dropWhile Char.isDigit :=
          (List.takeWhile_append_dropWhile _ _).symm
        rw [hs] at this
        simp only [List.cons_append, List.append_assoc, List.cons.injEq, true_and]
        simpa [List.append_assoc] using this
      · -- `pre` is non-empty: the text after the digits starts with a non-digit
        cases pre with
        | nil =>
          cases r with
          | nil => exact absurd rfl hne
          | cons x xs =>
            have h1 := head_dropWhile_not (p := Char.isDigit) cs x (by rw [hs]; simp)
            have h2 := hall x (by simp)
            rw [h1] at h2; cases h2
        | cons w ws =>
          intro z hz
          apply hpre z
          rw [← hz]
          rw [show c :: List.takeWhile Char.isDigit cs ++ w :: ws
              = (c :: List.takeWhile Char.isDigit cs) ++ (w :: ws) from rfl]
          rw [List.getLast?_append_of_ne_nil _ (by simp)]

theorem mem_findAllDigitsAux (fuel : Nat) (s r : List Char) (h : s.length ≤ fuel) :
    r ∈ findAllDigitsAux fuel s ↔ IsMaxDigitRun s r := by
  induction fuel generalizing s with
  | zero =>
    have : s = [] := List.length_eq_zero.1 (Nat.le_zero.1 h)
    subst this
    simp only [findAllDigitsAux, List.not_mem_nil, false_iff]
    rintro ⟨hne, -, pre, post, hs, -, -⟩
    simp at hs
    exact hne hs.2.1
  | succ fuel ih =>
    cases s with
    | nil =>
      simp only [findAllDigitsAux, List.not_mem_nil, false_iff]
      rintro ⟨hne, -, pre, post, hs, -, -⟩
      simp at hs
      exact hne hs.2.1
    | cons c cs =>
      simp only [List.length_cons, Nat.add_le_add_iff_right] at h
      by_cases hc : c.isDigit = true
      · rw [isMaxDigitRun_cons_of_digit c cs r hc]
        simp only [findAllDigitsAux, hc, if_true, List.mem_cons]
        rw [ih _ (le_trans (List.Sublist.length_le (List.dropWhile_sublist _)) h)]
      · have hc' : c.isDigit = false := by simpa using hc
        rw [isMaxDigitRun_cons_of_not_digit c cs r hc']
        simp only [findAllDigitsAux, hc', Bool.false_eq_true, if_false]
        exact ih _ h

theorem mem_findAllDigits (s r : List Char) :
    r ∈ findAllDigits s ↔ IsMaxDigitRun s r :=
  mem_findAllDigitsAux s.length s r le_rfl

theorem mem_mapInsert (m : List Int) (k n : Int) : n ∈ mapInsert m k ↔ n ∈ m ∨ n = k := by
  unfold mapInsert
  split
  · constructor
    · exact Or.inl
    · rintro (h | rfl)
      · exact h
      · assumption
  · simp

theorem nodup_mapInsert (m : List Int) (k : Int) (h : m.Nodup) : (mapInsert m k).Nodup := by
  unfold mapInsert
  split
  · exact h
  · rename_i hk
    exact List.Nodup.append h (List.nodup_singleton k) (by simpa using hk)

theorem mem_parseStep (set : List Int) (f : List Char) (n : Int) :
    n ∈ parseStep set f ↔ n ∈ set ∨ (Atoi f = some n ∧ 0 < n) := by
  unfold parseStep
  cases h : Atoi f with
  | none => simp
  | some v =>
    simp only [gt_iff_lt, Option.some.injEq]
    split
    · rw [mem_mapInsert]
      constructor
      · rintro (h1 | rfl)
        · exact Or.inl h1
        · exact Or.inr ⟨rfl, by assumption⟩
      · rintro (h1 | ⟨rfl, _⟩)
        · exact Or.inl h1
        · exact Or.inr rfl
    · constructor
      · exact Or.inl
      · rintro (h1 | ⟨rfl, h2⟩)
        · exact h1
        · contradiction

theorem nodup_parseStep (set : List Int) (f : List Char) (h : set.Nodup) :
    (parseStep set f).Nodup := by
  unfold parseStep
  cases Atoi f with
  | none => exact h
  | some v =>
    simp only
    split
    · exact nodup_mapInsert _ _ h
    · exact h

theorem mem_foldl_parseStep (found : List (List Char)) (set : List Int) (n : Int) :
    n ∈ found.foldl parseStep set ↔ n ∈ set ∨ ∃ f ∈ found, Atoi f = some n ∧ 0 < n := by
  induction found generalizing set with
  | nil => simp
  | cons f fs ih =>
    rw [List.foldl_cons, ih, mem_parseStep]
    simp only [List.mem_cons, exists_eq_or_imp]
    tauto

theorem nodup_foldl_parseStep (found : List (List Char)) (set : List Int) (h : set.Nodup) :
    (found.foldl parseStep set).Nodup := by
  induction found generalizing set with
  | nil => exact h
  | cons f fs ih => exact ih _ (nodup_parseStep _ _ h)

theorem Atoi_of_digits (r : List Char) (hne : r ≠ []) (hall : ∀ c ∈ r, c.isDigit = true) :
    Atoi r = if (decVal r : Int) ≤ maxInt then some (decVal r : Int) else none := by
  have hds : isDigitString r = true := by
    cases r with
    | nil => exact absurd rfl hne
    | cons x xs => simpa [isDigitString] using hall
  unfold Atoi ParseInt
  split
  · exact absurd (hall '-' (by simp)) (by decide)
  · exact absurd (hall '+' (by simp)) (by decide)
  · simp [hds]

theorem sortInts_sorted (l : List Int) : (sortInts l).Sorted (· ≤ ·) :=
  List.sorted_insertionSort _ l

theorem sortInts_perm (l : List Int) : (sortInts l).Perm l :=
  List.perm_insertionSort _ l

theorem mem_ParseSolvedTasks (rangeOrder : List Int → List Int) (h : IsRangeOrder rangeOrder)
    (s : List Char) (n : Int) :
    n ∈ ParseSolvedTasks rangeOrder s ↔ ∃ f ∈ findAllDigits s, Atoi f = some n ∧ 0 < n := by
  unfold ParseSolvedTasks
  simp only
  rw [(sortInts_perm _).mem_iff, (h _).mem_iff, mem_foldl_parseStep]
  simp

theorem sorted_ParseSolvedTasks (rangeOrder : List Int → List Int) (h : IsRangeOrder rangeOrder)
    (s : List Char) : (ParseSolvedTasks rangeOrder s).Sorted (· < ·) := by
  unfold ParseSolvedTasks
  simp only
  apply List.Sorted.lt_of_le (sortInts_sorted _)
  apply ((sortInts_perm _).trans (h _)).nodup_iff.2
  exact nodup_foldl_parseStep _ _ List.nodup_nil

/-- C1 (amended): `ParseSolvedTasks` returns the strictly ascending list whose
members are exactly the integers `n` with `0 < n ≤ 2^63 - 1` that are denoted by
some maximal run of ASCII digits of the text. -/
theorem ParseSolvedTasks_eq_positive_runs (rangeOrder : List Int → List Int)
    (h : IsRangeOrder rangeOrder) (s : List Char) :
    (ParseSolvedTasks rangeOrder s).Sorted (· < ·) ∧
      ∀ n : Int, n ∈ ParseSolvedTasks rangeOrder s ↔
        (0 < n ∧ n ≤ maxInt ∧ ∃ r, IsMaxDigitRun s r ∧ (decVal r : Int) = n) := by
  refine ⟨sorted_ParseSolvedTasks rangeOrder h s, fun n => ?_⟩
  rw [mem_ParseSolvedTasks rangeOrder h]
  constructor
  · rintro ⟨f, hf, hA, hpos⟩
    have hrun := (mem_findAllDigits s f).1 hf
    rw [Atoi_of_digits f hrun.1 hrun.2.1] at hA
    split at hA
    · rename_i hle
      simp only [Option.some.injEq] at hA
      exact ⟨hpos, hA ▸ hle, f, hrun, hA⟩
    · cases hA
  · rintro ⟨hpos, hle, r, hrun, hval⟩
    refine ⟨r, (mem_findAllDigits s r).2 hrun, ?_, hpos⟩
    rw [Atoi_of_digits r hrun.1 hrun.2.1, hval, if_pos hle]

/-- The example of the specification: the text `Решено: 3, 12, 107, 0, 3` gives
`[3, 12, 107]`, here with the keys visited in reverse order. -/
theorem ParseSolvedTasks_eq_positive_runs_witness :
    IsRangeOrder List.reverse ∧
    ParseSolvedTasks List.reverse "Решено: 3, 12, 107, 0, 3".toList = [3, 12, 107] ∧
    ((ParseSolvedTasks List.reverse "Решено: 3, 12, 107, 0, 3".toList).Sorted (· < ·) ∧
      ∀ n : Int, n ∈ ParseSolvedTasks List.reverse "Решено: 3, 12, 107, 0, 3".toList ↔
        (0 < n ∧ n ≤ maxInt ∧
          ∃ r, IsMaxDigitRun "Решено: 3, 12, 107, 0, 3".toList r ∧ (decVal r : Int) = n)) :=
  ⟨fun l => List.reverse_perm l, by decide,
    ParseSolvedTasks_eq_positive_runs List.reverse (fun l => List.reverse_perm l) _⟩

/-- The text `9223372036854775808` is one maximal digit run that denotes a positive integer,
yet the result is empty: `strconv.Atoi` rejects the run as out of range. -/
theorem ParseSolvedTasks_drops_out_of_range_run :
    ¬ ((9223372036854775808 : Int) ∈ ParseSolvedTasks id "9223372036854775808".toList ↔
        (0 < (9223372036854775808 : Int) ∧
          ∃ r, IsMaxDigitRun "9223372036854775808".toList r ∧
            (decVal r : Int) = 9223372036854775808)) := by
  intro hiff
  have hmem : (9223372036854775808 : Int) ∈ ParseSolvedTasks id "9223372036854775808".toList :=
    hiff.2 ⟨by decide, "9223372036854775808".toList,
      ⟨by decide, by decide, [], [], by simp, by simp, by simp⟩, by decide⟩
  have hnil : ParseSolvedTasks id "9223372036854775808".toList = [] := by decide
  rw [hnil] at hmem
  cases hmem

/-- C2: for every text, the list returned by `ParseSolvedTasks` is strictly
ascending (hence free of duplicates) and each of its elements is strictly
positive. -/
theorem ParseSolvedTasks_strictly_ascending_positive (rangeOrder : List Int → List Int)
    (h : IsRangeOrder rangeOrder) (s : List Char) :
    (ParseSolvedTasks rangeOrder s).Sorted (· < ·) ∧
      (ParseSolvedTasks rangeOrder s).Nodup ∧
      ∀ n ∈ ParseSolvedTasks rangeOrder s, 0 < n := by
  refine ⟨sorted_ParseSolvedTasks rangeOrder h s, (sorted_ParseSolvedTasks rangeOrder h s).nodup,
    fun n hn => ?_⟩
  obtain ⟨f, -, -, hpos⟩ := (mem_ParseSolvedTasks rangeOrder h s n).1 hn
  exact hpos

/-- The empty text gives the empty list, and the text `a7b 7, 0 and 19` an ascending list of
positive numbers. -/
theorem ParseSolvedTasks_strictly_ascending_positive_witness :
    IsRangeOrder id ∧ ParseSolvedTasks id [] = [] ∧
    ((ParseSolvedTasks id "a7b 7, 0 and 19".toList).Sorted (· < ·) ∧
      (ParseSolvedTasks id "a7b 7, 0 and 19".toList).Nodup ∧
      ∀ n ∈ ParseSolvedTasks id "a7b 7, 0 and 19".toList, 0 < n) :=
  ⟨fun _ => List.Perm.refl _, by decide,
    ParseSolvedTasks_strictly_ascending_positive id (fun _ => List.Perm.refl _) _⟩

/-! ### The sweep of `main` -/

theorem isSolved_iff (alreadySolved : List Int) (taskID : Int) :
    isSolved alreadySolved taskID = true ↔ taskID ∈ alreadySolved := by
  unfold isSolved
  simp only [List.any_eq_true, beq_iff_eq]
  constructor
  · rintro ⟨x, hx, rfl⟩; exact hx
  · intro h; exact ⟨taskID, h, rfl⟩

theorem IsProcessed_iff (st : Store) (taskID : Int) :
    IsProcessed st taskID = true ↔ taskID ∈ st.processedTasks := by
  simp [IsProcessed]

theorem IsProcessed_MarkAsProcessed (rangeOrder : List Int → List Int) (taskID : Int)
    (st : Store) (file : File) (w : WriteOutcome) (x : Int) :
    IsProcessed (MarkAsProcessed rangeOrder taskID st file w).1 x = true ↔
      (IsProcessed st x = true ∨ x = taskID) := by
  simp only [MarkAsProcessed, IsProcessed_iff, mem_mapInsert]

/-- The unprocessed, unsolved identifiers among `count` consecutive ones. -/
theorem mainLoop_invoked (rangeOrder : List Int → List Int) (outcomes : Int → NewOutcome)
    (alreadySolved : List Int) (hfatal : ∀ id, outcomes id ≠ NewOutcome.fatal) (st0 : Store)
    (count : Nat) :
    ∀ (t : Nat) (st : Store) (file : File),
      (∀ x : Int, (t : Int) ≤ x → IsProcessed st x = IsProcessed st0 x) →
      (mainLoop rangeOrder outcomes alreadySolved count (t : Int) st file).invoked =
        ((List.range' t count).map Int.ofNat).filter
          (fun id => !isSolved alreadySolved id && !IsProcessed st0 id) ∧
      (mainLoop rangeOrder outcomes alreadySolved count (t : Int) st file).final ≠ none := by
  induction count with
  | zero => intro t st file _; simp [mainLoop]
  | succ count ih =>
    intro t st file hst
    have hnext : ((t : Int) + 1) = ((t + 1 : Nat) : Int) := by push_cast; ring
    have hkeep : ∀ x : Int, ((t + 1 : Nat) : Int) ≤ x → IsProcessed st x = IsProcessed st0 x :=
      fun x hx => hst x (by push_cast at hx; omega)
    have ht : IsProcessed st (t : Int) = IsProcessed st0 (t : Int) := hst _ le_rfl
    simp only [List.range'_succ, List.map_cons, List.filter_cons, Int.ofNat_eq_coe]
    rw [mainLoop]
    by_cases hs : isSolved alreadySolved (t : Int) = true
    · simp only [hs, if_true, Bool.not_true, Bool.false_and, Bool.false_eq_true, if_false]
      rw [hnext]
      simpa using ih (t + 1) st file hkeep
    · have hs' : isSolved alreadySolved (t : Int) = false := by simpa using hs
      by_cases hp : IsProcessed st (t : Int) = true
      · simp only [hs', hp, ← ht, Bool.false_eq_true, if_false, if_true, Bool.not_true,
          Bool.and_false]
        rw [hnext]
        simpa using ih (t + 1) st file hkeep
      · have hp' : IsProcessed st (t : Int) = false := by simpa using hp
        simp only [hs', hp', ← ht, Bool.false_eq_true, if_false, Bool.not_false, Bool.and_self,
          if_true]
        cases ho : outcomes (t : Int) with
        | fatal => exact absurd ho (hfatal _)
        | submitted w =>
          simp only [New]
          rw [hnext]
          have hst1 : ∀ x : Int, ((t + 1 : Nat) : Int) ≤ x →
              IsProcessed (MarkAsProcessed rangeOrder (t : Int) st file w).1 x
                = IsProcessed st0 x := by
            intro x hx
            rw [← hkeep x hx]
            have hne : x ≠ (t : Int) := by push_cast at hx; omega
            have := IsProcessed_MarkAsProcessed rangeOrder (t : Int) st file w x
            rw [Bool.eq_iff_iff, this]
            simp [hne]
          have := ih (t + 1) (MarkAsProcessed rangeOrder (t : Int) st file w).1
            (MarkAsProcessed rangeOrder (t : Int) st file w).2.1 hst1
          simpa using this

theorem idRange_sorted (last : Nat) : (idRange last).Sorted (· < ·) := by
  unfold idRange
  have h : (List.range' 1 last).Sorted (· < ·) := by
    simpa [List.Sorted] using (List.pairwise_lt_range' 1 last)
  exact (List.pairwise_map).2 (h.imp (fun hab => by simpa using hab))

theorem mem_idRange (last : Nat) (id : Int) : id ∈ idRange last ↔ 1 ≤ id ∧ id ≤ last := by
  unfold idRange
  simp only [List.mem_map, List.mem_range'_1, Int.ofNat_eq_coe]
  constructor
  · rintro ⟨a, ⟨h1, h2⟩, rfl⟩
    constructor <;> omega
  · rintro ⟨h1, h2⟩
    refine ⟨id.toNat, ⟨by omega, by omega⟩, by omega⟩

/-- C3: when no call of `worker.New` is fatal, the sweep over `1, ..., last`
calls `worker.New` exactly for the identifiers of that range that are neither in
the solved list nor processed at the start, once each and in ascending order,
and runs to the end of the range. -/
theorem mainSweep_invokes_exactly_remaining (rangeOrder : List Int → List Int)
    (outcomes : Int → NewOutcome) (alreadySolved : List Int) (last : Nat) (st : Store)
    (file : File) (hfatal : ∀ id, outcomes id ≠ NewOutcome.fatal) :
    (mainSweep rangeOrder outcomes alreadySolved last st file).invoked =
        (idRange last).filter (fun id => !isSolved alreadySolved id && !IsProcessed st id) ∧
      (mainSweep rangeOrder outcomes alreadySolved last st file).invoked.Sorted (· < ·) ∧
      (∀ id : Int, id ∈ (mainSweep rangeOrder outcomes alreadySolved last st file).invoked ↔
        (1 ≤ id ∧ id ≤ last) ∧ id ∉ alreadySolved ∧ IsProcessed st id = false) ∧
      (mainSweep rangeOrder outcomes alreadySolved last st file).final ≠ none := by
  have h := mainLoop_invoked rangeOrder outcomes alreadySolved hfatal st last 1 st file
    (fun _ _ => rfl)
  have heq : (mainSweep rangeOrder outcomes alreadySolved last st file).invoked =
      (idRange last).filter (fun id => !isSolved alreadySolved id && !IsProcessed st id) := by
    unfold mainSweep idRange
    exact_mod_cast h.1
  refine ⟨heq, ?_, ?_, ?_⟩
  · rw [heq]
    exact (idRange_sorted last).filter _
  · intro id
    rw [heq, List.mem_filter, mem_idRange]
    have := isSolved_iff alreadySolved id
    cases hs : isSolved alreadySolved id <;> cases hp : IsProcessed st id <;>
      simp [hs, hp] at this ⊢ <;> tauto
  · unfold mainSweep
    exact_mod_cast h.2

/-- The example of the specification: solved `{3}`, processed `{5, 7}` and the range `1..8`
give calls for exactly `1, 2, 4, 6, 8`. -/
theorem mainSweep_invokes_exactly_remaining_witness :
    (∀ k : Int, (fun _ => NewOutcome.submitted WriteOutcome.ok) k ≠ NewOutcome.fatal) ∧
    (mainSweep id (fun _ => NewOutcome.submitted WriteOutcome.ok) [3] 8 ⟨[5, 7], true⟩
        File.absent).invoked = [1, 2, 4, 6, 8] ∧
    ((mainSweep id (fun _ => NewOutcome.submitted WriteOutcome.ok) [3] 8 ⟨[5, 7], true⟩
          File.absent).invoked =
        (idRange 8).filter (fun k => !isSolved [3] k && !IsProcessed ⟨[5, 7], true⟩ k) ∧
      (mainSweep id (fun _ => NewOutcome.submitted WriteOutcome.ok) [3] 8 ⟨[5, 7], true⟩
          File.absent).invoked.Sorted (· < ·) ∧
      (∀ k : Int, k ∈ (mainSweep id (fun _ => NewOutcome.submitted WriteOutcome.ok) [3] 8
          ⟨[5, 7], true⟩ File.absent).invoked ↔
        (1 ≤ k ∧ k ≤ (8 : Nat)) ∧ k ∉ [3] ∧ IsProcessed ⟨[5, 7], true⟩ k = false) ∧
      (mainSweep id (fun _ => NewOutcome.submitted WriteOutcome.ok) [3] 8 ⟨[5, 7], true⟩
          File.absent).final ≠ none) :=
  ⟨(fun _ h => by cases h), by decide,
    mainSweep_invokes_exactly_remaining id (fun _ => NewOutcome.submitted WriteOutcome.ok) [3] 8
      ⟨[5, 7], true⟩ File.absent (fun _ h => by cases h)⟩

/-! ### Generation with fallback -/

theorem Contains_iff_sublist (s substr : List Char) :
    Contains s substr = true ↔ substr <:+: s := by
  induction s with
  | nil => simp [Contains, List.infix_nil, List.isEmpty_iff]
  | cons c cs ih =>
    rw [Contains, Bool.or_eq_true, ih, List.infix_cons_iff, List.isPrefixOf_iff_prefix]

theorem Contains_more_credits (errStr : List Char)
    (h : Contains errStr "requires more credits".toList = true) :
    Contains errStr "more credits".toList = true := by
  rw [Contains_iff_sublist] at h ⊢
  refine List.IsInfix.trans ?_ h
  exact ⟨"requires ".toList, [], by decide⟩

theorem generateCodeWithFallback_of_error (generateCode : GenCall → StrResult) (task : Task)
    (apiKey model fallbackModel : List Char) (maxTokens : Int) (errStr : List Char)
    (herr : (generateCode (primaryCall task apiKey model maxTokens)).2 = some errStr) :
    generateCodeWithFallback generateCode task apiKey model fallbackModel maxTokens =
      if fallbackModel ≠ [] ∧ fallbackModel ≠ model then
        if (Contains errStr "402".toList || Contains errStr "more credits".toList ||
            Contains errStr "requires more credits".toList) = true then
          (generateCode (retryCall task apiKey fallbackModel),
            [primaryCall task apiKey model maxTokens, retryCall task apiKey fallbackModel])
        else (generateCode (primaryCall task apiKey model maxTokens),
          [primaryCall task apiKey model maxTokens])
      else (generateCode (primaryCall task apiKey model maxTokens),
        [primaryCall task apiKey model maxTokens]) := by
  unfold primaryCall at herr
  unfold generateCodeWithFallback primaryCall retryCall
  simp only [herr]

theorem generateCodeWithFallback_of_success (generateCode : GenCall → StrResult) (task : Task)
    (apiKey model fallbackModel : List Char) (maxTokens : Int)
    (herr : (generateCode (primaryCall task apiKey model maxTokens)).2 = none) :
    generateCodeWithFallback generateCode task apiKey model fallbackModel maxTokens =
      (generateCode (primaryCall task apiKey model maxTokens),
        [primaryCall task apiKey model maxTokens]) := by
  unfold primaryCall at herr
  unfold generateCodeWithFallback primaryCall
  simp only [herr]

/-- C4 (what the code does): when the primary call fails with a message that
contains `requires more credits` and a fallback model different from the
primary model is configured, `generateCodeWithFallback` makes exactly one
further call, for the fallback model, with the output-token budget 5000; when
the primary budget is the 16000 of the workflow, the budget of the retry is not
larger than it. -/
theorem generateCodeWithFallback_retry_budget (generateCode : GenCall → StrResult) (task : Task)
    (apiKey model fallbackModel : List Char) (maxTokens : Int) (solution msg : List Char)
    (hfail : generateCode (primaryCall task apiKey model maxTokens) = (solution, some msg))
    (hmsg : Contains msg "requires more credits".toList = true)
    (hset : fallbackModel ≠ []) (hne : fallbackModel ≠ model) :
    (generateCodeWithFallback generateCode task apiKey model fallbackModel maxTokens).2 =
        [primaryCall task apiKey model maxTokens, retryCall task apiKey fallbackModel] ∧
      (generateCodeWithFallback generateCode task apiKey model fallbackModel maxTokens).1 =
        generateCode (retryCall task apiKey fallbackModel) ∧
      (retryCall task apiKey fallbackModel).model = fallbackModel ∧
      (retryCall task apiKey fallbackModel).maxTokens = 5000 ∧
      (maxTokens = primaryMaxTokens →
        ¬ (maxTokens < (retryCall task apiKey fallbackModel).maxTokens)) := by
  have herr : (generateCode (primaryCall task apiKey model maxTokens)).2 = some msg := by
    rw [hfail]
  have hsig : (Contains msg "402".toList || Contains msg "more credits".toList ||
      Contains msg "requires more credits".toList) = true := by
    rw [hmsg, Bool.or_true]
  rw [generateCodeWithFallback_of_error generateCode task apiKey model fallbackModel maxTokens
    msg herr, if_pos ⟨hset, hne⟩, if_pos hsig]
  refine ⟨rfl, rfl, rfl, rfl, ?_⟩
  · intro h
    subst h
    simp [retryCall, primaryMaxTokens]

/-- Primary model `A`, fallback model `B`, primary budget 16000 and a primary failure that
requires more credits: the retry goes to `B` with the budget 5000, which is not larger than
16000. -/
theorem generateCodeWithFallback_retry_budget_witness :
    (generateCodeWithFallback
        (fun c => if c.model = "A".toList then
            ([], some "API error 402: this request requires more credits".toList)
          else ("int main(){}".toList, none))
        ⟨42, [], [], 0, 0, 0, []⟩ [] "A".toList "B".toList 16000).2 =
      [primaryCall ⟨42, [], [], 0, 0, 0, []⟩ [] "A".toList 16000,
        retryCall ⟨42, [], [], 0, 0, 0, []⟩ [] "B".toList] ∧
    (retryCall ⟨42, [], [], 0, 0, 0, []⟩ [] "B".toList).maxTokens = 5000 ∧
    ¬ ((16000 : Int) < (retryCall ⟨42, [], [], 0, 0, 0, []⟩ [] "B".toList).maxTokens) :=
  have h := generateCodeWithFallback_retry_budget
    (fun c => if c.model = "A".toList then
        ([], some "API error 402: this request requires more credits".toList)
      else ("int main(){}".toList, none))
    ⟨42, [], [], 0, 0, 0, []⟩ [] "A".toList "B".toList 16000 []
    "API error 402: this request requires more credits".toList
    (by decide) (by decide) (by decide) (by decide)
  ⟨h.1, h.2.2.2.1, h.2.2.2.2 (by decide)⟩

theorem FallbackApplies_iff (r : StrResult) (model fallbackModel : List Char) :
    FallbackApplies r model fallbackModel ↔
      ∃ msg, r.2 = some msg ∧ (fallbackModel ≠ [] ∧ fallbackModel ≠ model) ∧
        (Contains msg "402".toList || Contains msg "more credits".toList ||
          Contains msg "requires more credits".toList) = true := by
  unfold FallbackApplies
  constructor
  · rintro ⟨msg, h1, h2, h3, h4⟩
    refine ⟨msg, h1, ⟨h2, h3⟩, ?_⟩
    rcases h4 with h4 | h4
    · rw [h4, Bool.true_or, Bool.true_or]
    · rw [h4, Bool.or_true, Bool.true_or]
  · rintro ⟨msg, h1, ⟨h2, h3⟩, h4⟩
    refine ⟨msg, h1, h2, h3, ?_⟩
    simp only [Bool.or_eq_true] at h4
    rcases h4 with (h4 | h4) | h4
    · exact Or.inl h4
    · exact Or.inr h4
    · exact Or.inr (Contains_more_credits msg h4)

/-- C5: `generateCodeWithFallback` makes a second call of `generateCode` if and
only if the primary call failed, the fallback model is non-empty and differs
from the primary model, and the failure message contains `402` or
`more credits`; the second call is then the only further call and its result
is returned.  In every other case the primary call is the only call and its
result and error are returned unchanged. -/
theorem generateCodeWithFallback_decision (generateCode : GenCall → StrResult) (task : Task)
    (apiKey model fallbackModel : List Char) (maxTokens : Int) :
    ((generateCodeWithFallback generateCode task apiKey model fallbackModel maxTokens).2.length
          = 2 ↔
        FallbackApplies (generateCode (primaryCall task apiKey model maxTokens)) model
          fallbackModel) ∧
      (FallbackApplies (generateCode (primaryCall task apiKey model maxTokens)) model
          fallbackModel →
        (generateCodeWithFallback generateCode task apiKey model fallbackModel maxTokens).2 =
            [primaryCall task apiKey model maxTokens, retryCall task apiKey fallbackModel] ∧
          (generateCodeWithFallback generateCode task apiKey model fallbackModel maxTokens).1 =
            generateCode (retryCall task apiKey fallbackModel)) ∧
      (¬ FallbackApplies (generateCode (primaryCall task apiKey model maxTokens)) model
          fallbackModel →
        (generateCodeWithFallback generateCode task apiKey model fallbackModel maxTokens).2 =
            [primaryCall task apiKey model maxTokens] ∧
          (generateCodeWithFallback generateCode task apiKey model fallbackModel maxTokens).1 =
            generateCode (primaryCall task apiKey model maxTokens)) := by
  have key : (FallbackApplies (generateCode (primaryCall task apiKey model maxTokens)) model
          fallbackModel ∧
        generateCodeWithFallback generateCode task apiKey model fallbackModel maxTokens =
          (generateCode (retryCall task apiKey fallbackModel),
            [primaryCall task apiKey model maxTokens, retryCall task apiKey fallbackModel])) ∨
      (¬ FallbackApplies (generateCode (primaryCall task apiKey model maxTokens)) model
          fallbackModel ∧
        generateCodeWithFallback generateCode task apiKey model fallbackModel maxTokens =
          (generateCode (primaryCall task apiKey model maxTokens),
            [primaryCall task apiKey model maxTokens])) := by
    rw [FallbackApplies_iff]
    cases herr : (generateCode (primaryCall task apiKey model maxTokens)).2 with
    | none =>
      right
      refine ⟨?_, generateCodeWithFallback_of_success generateCode task apiKey model
        fallbackModel maxTokens herr⟩
      rintro ⟨msg, hm, -⟩
      cases hm
    | some errStr =>
      rw [generateCodeWithFallback_of_error generateCode task apiKey model fallbackModel
        maxTokens errStr herr]
      by_cases hfb : fallbackModel ≠ [] ∧ fallbackModel ≠ model
      · by_cases hsig : (Contains errStr "402".toList || Contains errStr "more credits".toList ||
            Contains errStr "requires more credits".toList) = true
        · left
          exact ⟨⟨errStr, rfl, hfb, hsig⟩, by rw [if_pos hfb, if_pos hsig]⟩
        · right
          refine ⟨?_, by rw [if_pos hfb, if_neg hsig]⟩
          rintro ⟨msg, hm, -, hs⟩
          cases hm
          exact hsig hs
      · right
        refine ⟨?_, by rw [if_neg hfb]⟩
        rintro ⟨msg, -, hf, -⟩
        exact hfb hf
  rcases key with ⟨hc, heq⟩ | ⟨hc, heq⟩
  · rw [heq]
    exact ⟨⟨fun _ => hc, fun _ => rfl⟩, fun _ => ⟨rfl, rfl⟩, fun h => absurd hc h⟩
  · rw [heq]
    exact ⟨⟨fun h => by simp at h, fun h => absurd h hc⟩, fun h => absurd h hc,
      fun _ => ⟨rfl, rfl⟩⟩

/-! ### The processed store: loading -/

theorem LoadProcessedTasks_loaded_of_success (st : Store) (file : File)
    (h : (LoadProcessedTasks st file).2 = none) :
    (LoadProcessedTasks st file).1.processedLoaded = true := by
  unfold LoadProcessedTasks at h ⊢
  by_cases hl : st.processedLoaded = true
  · simp only [hl, if_true]
  · simp only [hl, Bool.false_eq_true, if_false] at h ⊢
    cases file with
    | absent => rfl
    | unreadable => simp at h
    | content data =>
      simp only at h ⊢
      cases hd : (if data.length > 0 then jsonUnmarshalInts data else some []) with
      | none => rw [hd] at h; simp at h
      | some tasks => rfl

/-- C7 (amended): after a call of `LoadProcessedTasks` that returned success, a
second call is a no-op that returns success: it leaves the processed set and
the loaded flag as they are, whatever the backing file holds by then. -/
theorem LoadProcessedTasks_idempotent_after_success (st : Store) (file file' : File)
    (h : (LoadProcessedTasks st file).2 = none) :
    LoadProcessedTasks (LoadProcessedTasks st file).1 file' =
      ((LoadProcessedTasks st file).1, none) := by
  have hl := LoadProcessedTasks_loaded_of_success st file h
  generalize (LoadProcessedTasks st file).1 = st1 at hl
  unfold LoadProcessedTasks
  simp only [hl, if_true]

/-- After `[5,7]` was loaded, a second call leaves the set `{5, 7}` alone although the file
now holds `[1]`. -/
theorem LoadProcessedTasks_idempotent_after_success_witness :
    (LoadProcessedTasks ⟨[], false⟩ (File.content "[5,7]".toList)).2 = none ∧
    (LoadProcessedTasks ⟨[], false⟩ (File.content "[5,7]".toList)).1 = ⟨[5, 7], true⟩ ∧
    LoadProcessedTasks (LoadProcessedTasks ⟨[], false⟩ (File.content "[5,7]".toList)).1
        (File.content "[1]".toList) =
      ((LoadProcessedTasks ⟨[], false⟩ (File.content "[5,7]".toList)).1, none) :=
  ⟨by decide, by decide,
    LoadProcessedTasks_idempotent_after_success ⟨[], false⟩ (File.content "[5,7]".toList)
      (File.content "[1]".toList) (by decide)⟩

/-- After a first call that failed on the content `x`, a second call fails again on the same
content, and on the changed content `[1]` it changes the store. -/
theorem LoadProcessedTasks_second_call_after_failure :
    (LoadProcessedTasks ⟨[], false⟩ (File.content "x".toList)).2 = some StoreError.unmarshal ∧
    (LoadProcessedTasks (LoadProcessedTasks ⟨[], false⟩ (File.content "x".toList)).1
        (File.content "x".toList)).2 ≠ none ∧
    (LoadProcessedTasks (LoadProcessedTasks ⟨[], false⟩ (File.content "x".toList)).1
        (File.content "[1]".toList)).1 ≠
      (LoadProcessedTasks ⟨[], false⟩ (File.content "x".toList)).1 := by
  decide


/-! ### Trimming -/

theorem dropWhile_eq_self_of_head {p : Char → Bool} (s : List Char)
    (h : ∀ c, s.head? = some c → p c = false) : s.dropWhile p = s := by
  simpa using dropWhile_append_of_head (p := p) [] s (by simp) h

theorem trimBoth_sandwich (p : Char → Bool) (w0 mid w3 : List Char)
    (h0 : ∀ c ∈ w0, p c = true) (h3 : ∀ c ∈ w3, p c = true) (hne : mid ≠ [])
    (hhead : ∀ c, mid.head? = some c → p c = false)
    (hlast : ∀ c, mid.getLast? = some c → p c = false) :
    trimBoth p (w0 ++ mid ++ w3) = mid := by
  unfold trimBoth
  have h1 : (w0 ++ mid ++ w3).dropWhile p = mid ++ w3 := by
    rw [List.append_assoc]
    apply dropWhile_append_of_head w0 (mid ++ w3) h0
    intro c hc
    apply hhead c
    cases mid with
    | nil => exact absurd rfl hne
    | cons x xs => simpa using hc
  rw [h1, List.reverse_append]
  rw [dropWhile_append_of_head w3.reverse mid.reverse (fun c hc => h3 c (by simpa using hc))
    (fun c hc => hlast c (by simpa [List.head?_reverse] using hc))]
  exact List.reverse_reverse mid

theorem trimBoth_decomp (p : Char → Bool) (s : List Char) :
    ∃ w0 w3, s = w0 ++ trimBoth p s ++ w3 ∧ (∀ c ∈ w0, p c = true) ∧ (∀ c ∈ w3, p c = true) := by
  refine ⟨s.takeWhile p, (((s.dropWhile p).reverse).takeWhile p).reverse, ?_, ?_, ?_⟩
  · unfold trimBoth
    rw [List.append_assoc, ← List.reverse_append, List.takeWhile_append_dropWhile,
      List.reverse_reverse, List.takeWhile_append_dropWhile]
  · intro c hc
    exact List.mem_takeWhile_imp hc
  · intro c hc
    exact List.mem_takeWhile_imp (List.mem_reverse.1 hc)

theorem trimBoth_eq_self (p : Char → Bool) (s : List Char) (hne : s ≠ [])
    (hhead : ∀ c, s.head? = some c → p c = false)
    (hlast : ∀ c, s.getLast? = some c → p c = false) : trimBoth p s = s := by
  simpa using trimBoth_sandwich p [] s [] (by simp) (by simp) hne hhead hlast

/-! ### Decimal representations -/

theorem digitChar_isDigit (d : Nat) (h : d < 10) : (digitChar d).isDigit = true := by
  interval_cases d <;> decide

theorem digitVal_digitChar (d : Nat) (h : d < 10) : digitVal (digitChar d) = d := by
  interval_cases d <;> decide

theorem digitChar_ne_zero (d : Nat) (h : d < 10) (h0 : d ≠ 0) : digitChar d ≠ '0' := by
  interval_cases d <;> first | exact absurd rfl h0 | decide

theorem decVal_append_singleton (a : List Char) (c : Char) :
    decVal (a ++ [c]) = 10 * decVal a + digitVal c := by
  simp [decVal, List.foldl_append]

theorem formatNatAux_digits (fuel n : Nat) : ∀ c ∈ formatNatAux fuel n, c.isDigit = true := by
  induction fuel generalizing n with
  | zero => simp [formatNatAux]
  | succ fuel ih =>
    intro c hc
    rw [formatNatAux] at hc
    split at hc
    · rename_i hlt
      rw [List.mem_singleton] at hc
      subst hc
      exact digitChar_isDigit n hlt
    · rcases List.mem_append.1 hc with h | h
      · exact ih _ c h
      · rw [List.mem_singleton] at h
        subst h
        exact digitChar_isDigit _ (Nat.mod_lt _ (by decide))

theorem formatNatAux_ne_nil (fuel n : Nat) : formatNatAux (fuel + 1) n ≠ [] := by
  rw [formatNatAux]
  split <;> simp

theorem decVal_formatNatAux (fuel n : Nat) (h : n < fuel) : decVal (formatNatAux fuel n) = n := by
  induction fuel generalizing n with
  | zero => omega
  | succ fuel ih =>
    rw [formatNatAux]
    split
    · rename_i hlt
      simp [decVal, digitVal_digitChar n hlt]
    · rename_i hge
      rw [decVal_append_singleton, ih (n / 10) (by omega),
        digitVal_digitChar _ (Nat.mod_lt _ (by decide))]
      omega

theorem formatNatAux_head (fuel n : Nat) (h : n < fuel) (h0 : n ≠ 0) :
    ∀ c, (formatNatAux fuel n).head? = some c → c ≠ '0' := by
  induction fuel generalizing n with
  | zero => omega
  | succ fuel ih =>
    intro c hc
    rw [formatNatAux] at hc
    split at hc
    · rename_i hlt
      simp only [List.head?_cons, Option.some.injEq] at hc
      subst hc
      exact digitChar_ne_zero n hlt h0
    · rename_i hge
      have hne : formatNatAux fuel (n / 10) ≠ [] := by
        cases fuel with
        | zero => omega
        | succ f => exact formatNatAux_ne_nil f _
      rw [List.head?_append_of_ne_nil _ hne] at hc
      exact ih (n / 10) (by omega) (by omega) c hc

theorem formatNat_zero : formatNat 0 = ['0'] := by decide

theorem isJSONNatLiteral_formatNat (n : Nat) : isJSONNatLiteral (formatNat n) = true := by
  by_cases h0 : n = 0
  · subst h0; decide
  · unfold formatNat
    have hne := formatNatAux_ne_nil n n
    have hd := formatNatAux_digits (n + 1) n
    have hh := formatNatAux_head (n + 1) n (by omega) h0
    cases hf : formatNatAux (n + 1) n with
    | nil => exact absurd hf hne
    | cons c cs =>
      rw [hf] at hd hh
      have hc0 : c ≠ '0' := hh c rfl
      have hcd : c.isDigit = true := hd c (by simp)
      have hcs : cs.all Char.isDigit = true :=
        List.all_eq_true.2 (fun x hx => hd x (by simp [hx]))
      simp [isJSONNatLiteral, hc0, hcd, hcs]

theorem decVal_formatNat (n : Nat) : decVal (formatNat n) = n :=
  decVal_formatNatAux (n + 1) n (by omega)

theorem formatNat_digits (n : Nat) : ∀ c ∈ formatNat n, c.isDigit = true :=
  formatNatAux_digits (n + 1) n

theorem formatNat_ne_nil (n : Nat) : formatNat n ≠ [] := formatNatAux_ne_nil n n

theorem isDigitString_of_isJSONNatLiteral (ds : List Char) (h : isJSONNatLiteral ds = true) :
    isDigitString ds = true := by
  cases ds with
  | nil => simp [isJSONNatLiteral] at h
  | cons c cs =>
    simp only [isJSONNatLiteral, Bool.or_eq_true, Bool.and_eq_true, beq_iff_eq,
      List.isEmpty_iff] at h
    rcases h with ⟨rfl, rfl⟩ | ⟨⟨-, hc⟩, hcs⟩
    · decide
    · simp only [isDigitString, List.isEmpty_cons, Bool.not_false, List.all_cons, Bool.true_and,
        Bool.and_eq_true]
      exact ⟨hc, hcs⟩

theorem head_isDigit_of_isJSONNatLiteral (c : Char) (cs : List Char)
    (h : isJSONNatLiteral (c :: cs) = true) : c.isDigit = true := by
  have := isDigitString_of_isJSONNatLiteral _ h
  simp only [isDigitString, List.isEmpty_cons, Bool.not_false, List.all_cons, Bool.true_and,
    Bool.and_eq_true] at this
  exact this.1

/-- On a JSON integer literal `ParseInt` returns the denoted integer when it is
in the `int` range and fails otherwise. -/
theorem ParseInt_of_isJSONIntLiteral (tok : List Char) (h : isJSONIntLiteral tok = true) :
    ParseInt tok =
      if minInt ≤ intLitValue tok ∧ intLitValue tok ≤ maxInt then some (intLitValue tok)
      else none := by
  unfold isJSONIntLiteral at h
  split at h
  · rename_i ds
    have hds := isDigitString_of_isJSONNatLiteral ds h
    have hle : -(decVal ds : Int) ≤ maxInt := by
      have : (0 : Int) ≤ (decVal ds : Int) := Int.ofNat_nonneg _
      have hm : (0 : Int) ≤ maxInt := by decide
      omega
    simp only [ParseInt, intLitValue, hds, Bool.true_and, decide_eq_true_eq, hle, and_true]
  · rename_i ds hneg
    have hds := isDigitString_of_isJSONNatLiteral tok h
    cases tok with
    | nil => simp [isJSONNatLiteral] at h
    | cons c cs =>
      have hc := head_isDigit_of_isJSONNatLiteral c cs h
      have hm : c ≠ '-' := by rintro rfl; exact absurd hc (by decide)
      have hp : c ≠ '+' := by rintro rfl; exact absurd hc (by decide)
      have hge : minInt ≤ (decVal (c :: cs) : Int) := by
        have : (0 : Int) ≤ (decVal (c :: cs) : Int) := Int.ofNat_nonneg _
        have hm : minInt ≤ 0 := by decide
        omega
      have hval : intLitValue (c :: cs) = (decVal (c :: cs) : Int) := by
        unfold intLitValue
        split
        · rename_i heq; cases heq; exact absurd rfl hm
        · rfl
      rw [hval]
      unfold ParseInt
      split
      · rename_i heq; cases heq; exact absurd rfl hm
      · rename_i heq; cases heq; exact absurd rfl hp
      · simp only [hds, Bool.true_and, decide_eq_true_eq, hge, true_and]

/-! ### The JSON decoder -/

theorem chars_of_isJSONIntLiteral (tok : List Char) (h : isJSONIntLiteral tok = true) :
    tok ≠ [] ∧ ∀ c ∈ tok, c = '-' ∨ c.isDigit = true := by
  unfold isJSONIntLiteral at h
  split at h
  · rename_i ds
    refine ⟨by simp, fun c hc => ?_⟩
    rcases List.mem_cons.1 hc with rfl | hc
    · exact Or.inl rfl
    · right
      have := isDigitString_of_isJSONNatLiteral ds h
      simp only [isDigitString, Bool.and_eq_true, List.all_eq_true] at this
      exact this.2 c hc
  · have := isDigitString_of_isJSONNatLiteral tok h
    simp only [isDigitString, Bool.and_eq_true, List.all_eq_true, Bool.not_eq_true',
      List.isEmpty_eq_false] at this
    exact ⟨this.1, fun c hc => Or.inr (this.2 c hc)⟩

theorem not_space_of_token_char (c : Char) (h : c = '-' ∨ c.isDigit = true) :
    isJSONSpace c = false ∧ c ≠ ',' ∧ c ≠ 'n' := by
  rcases h with rfl | h
  · decide
  · refine ⟨?_, ?_, ?_⟩
    · by_contra hs
      simp only [isJSONSpace, Bool.or_eq_true, beq_iff_eq, Bool.not_eq_false] at hs
      rcases hs with ((rfl | rfl) | rfl) | rfl <;> exact absurd h (by decide)
    · rintro rfl; exact absurd h (by decide)
    · rintro rfl; exact absurd h (by decide)

theorem head_getLast_of_forall (p : Char → Prop) (s : List Char) (h : ∀ c ∈ s, p c) :
    (∀ c, s.head? = some c → p c) ∧ (∀ c, s.getLast? = some c → p c) :=
  ⟨fun c hc => h c (List.mem_of_mem_head? hc), fun c hc => h c (List.mem_of_getLast?_eq_some hc)⟩

theorem decodeElem_of_isJSONIntLiteral (tok : List Char) (h : isJSONIntLiteral tok = true) :
    decodeElem tok = ParseInt tok := by
  have hch := chars_of_isJSONIntLiteral tok h
  have hnull : tok ≠ "null".toList := by
    intro heq
    have := (not_space_of_token_char 'n' (hch.2 'n' (by rw [heq]; decide))).2.2
    exact this rfl
  unfold decodeElem
  rw [if_neg hnull, if_pos h]

/-- What a well-formed array element decodes to. -/
theorem decodeElem_of_IsJSONElem (piece : List Char) (v : Option Int) (h : IsJSONElem piece v) :
    decodeElem (trimBoth isJSONSpace piece) = some (v.getD 0) ∧ ',' ∉ piece ∧
      ∃ c ∈ piece, isJSONSpace c = false := by
  obtain ⟨w1, tok, w2, rfl, h1, h2, hv⟩ := h
  have hcomma : ∀ w, IsJSONWs w → ',' ∉ w := fun w hw hmem => absurd (hw ',' hmem) (by decide)
  rcases hv with ⟨rfl, rfl⟩ | ⟨hlit, rfl, hlo, hhi⟩
  · refine ⟨?_, ?_, 'n', by simp, by decide⟩
    · rw [trimBoth_sandwich isJSONSpace w1 "null".toList w2 h1 h2 (by decide)
        (by decide) (by decide)]
      rfl
    · intro hmem
      rcases List.mem_append.1 hmem with hmem | hmem
      · rcases List.mem_append.1 hmem with hmem | hmem
        · exact hcomma w1 h1 hmem
        · exact absurd hmem (by decide)
      · exact hcomma w2 h2 hmem
  · obtain ⟨hne, hch⟩ := chars_of_isJSONIntLiteral tok hlit
    have hns : ∀ c ∈ tok, isJSONSpace c = false :=
      fun c hc => (not_space_of_token_char c (hch c hc)).1
    obtain ⟨hhead, hlast⟩ := head_getLast_of_forall (fun c => isJSONSpace c = false) tok hns
    refine ⟨?_, ?_, ?_⟩
    · rw [trimBoth_sandwich isJSONSpace w1 tok w2 h1 h2 hne hhead hlast,
        decodeElem_of_isJSONIntLiteral tok hlit, ParseInt_of_isJSONIntLiteral tok hlit,
        if_pos ⟨hlo, hhi⟩]
      rfl
    · intro hmem
      rcases List.mem_append.1 hmem with hmem | hmem
      · rcases List.mem_append.1 hmem with hmem | hmem
        · exact hcomma w1 h1 hmem
        · exact (not_space_of_token_char ',' (hch ',' hmem)).2.1 rfl
      · exact hcomma w2 h2 hmem
    · cases tok with
      | nil => exact absurd rfl hne
      | cons c cs => exact ⟨c, by simp, hns c (by simp)⟩

/-- What a decoded array element looked like. -/
theorem IsJSONElem_of_decodeElem (piece : List Char) (n : Int)
    (h : decodeElem (trimBoth isJSONSpace piece) = some n) :
    ∃ v, IsJSONElem piece v ∧ n = v.getD 0 := by
  obtain ⟨w1, w2, hp, h1, h2⟩ := trimBoth_decomp isJSONSpace piece
  generalize trimBoth isJSONSpace piece = tok at h hp
  unfold decodeElem at h
  split at h
  · rename_i hnull
    cases h
    exact ⟨none, ⟨w1, tok, w2, hp, h1, h2, Or.inl ⟨rfl, hnull⟩⟩, rfl⟩
  · split at h
    · rename_i hlit
      rw [ParseInt_of_isJSONIntLiteral tok hlit] at h
      split at h
      · rename_i hr
        cases h
        exact ⟨some (intLitValue tok), ⟨w1, tok, w2, hp, h1, h2, Or.inr ⟨hlit, rfl, hr.1, hr.2⟩⟩,
          rfl⟩
      · cases h
    · cases h

theorem decodeElems_of_forall₂ (pieces : List (List Char)) (vs : List (Option Int))
    (h : List.Forall₂ IsJSONElem pieces vs) :
    decodeElems pieces = some (vs.map (fun v => v.getD 0)) := by
  induction h with
  | nil => rfl
  | cons hd _ ih =>
    rw [decodeElems, (decodeElem_of_IsJSONElem _ _ hd).1, ih]
    rfl

theorem forall₂_of_decodeElems (pieces : List (List Char)) (l : List Int)
    (h : decodeElems pieces = some l) :
    ∃ vs, List.Forall₂ IsJSONElem pieces vs ∧ l = vs.map (fun v => v.getD 0) := by
  induction pieces generalizing l with
  | nil =>
    simp only [decodeElems, Option.some.injEq] at h
    exact ⟨[], List.Forall₂.nil, h.symm⟩
  | cons piece rest ih =>
    rw [decodeElems] at h
    cases h1 : decodeElem (trimBoth isJSONSpace piece) with
    | none => rw [h1] at h; cases h
    | some n =>
      cases h2 : decodeElems rest with
      | none => rw [h1, h2] at h; cases h
      | some ns =>
        rw [h1, h2] at h
        simp only [Option.some.injEq] at h
        obtain ⟨v, hv, hn⟩ := IsJSONElem_of_decodeElem piece n h1
        obtain ⟨vs, hvs, hns⟩ := ih ns h2
        exact ⟨v :: vs, List.Forall₂.cons hv hvs, by rw [← h, hn, hns]; rfl⟩

theorem forall₂_exists_of_mem {pieces : List (List Char)} {vs : List (Option Int)}
    (h : List.Forall₂ IsJSONElem pieces vs) {piece : List Char} (hp : piece ∈ pieces) :
    ∃ v, IsJSONElem piece v := by
  induction h with
  | nil => cases hp
  | cons hd _ ih =>
    rcases List.mem_cons.1 hp with rfl | hp
    · exact ⟨_, hd⟩
    · exact ih hp

theorem jsonUnmarshalInts_of_trim (data body : List Char)
    (h : trimBoth isJSONSpace data = '[' :: body ++ [']']) :
    jsonUnmarshalInts data =
      if body.all isJSONSpace then some [] else decodeElems (body.splitOn ',') := by
  unfold jsonUnmarshalInts
  simp only [h]
  have hnull : ¬ ('[' :: body ++ [']'] = "null".toList) := by
    intro heq
    have := congrArg List.head? heq
    simp only [List.cons_append, List.head?_cons] at this
    exact absurd this (by decide)
  rw [if_neg hnull]
  simp only [List.cons_append, List.reverse_append, List.reverse_cons, List.reverse_nil,
    List.nil_append, List.singleton_append, List.all_reverse, List.reverse_reverse]

/-- A JSON array of integers and `null`s is decoded to its elements, `null`
counting as `0`. -/
theorem jsonUnmarshalInts_of_IsJSONArray (data : List Char) (vs : List (Option Int))
    (h : IsJSONArray data vs) :
    jsonUnmarshalInts data = some (vs.map (fun v => v.getD 0)) := by
  obtain ⟨w0, body, w3, rfl, h0, h3, hbody⟩ := h
  have htrim : trimBoth isJSONSpace (w0 ++ '[' :: body ++ ']' :: w3) = '[' :: body ++ [']'] := by
    have := trimBoth_sandwich isJSONSpace w0 ('[' :: body ++ [']']) w3 h0 h3 (by simp)
      (by intro c hc; simp at hc; subst hc; decide)
      (by
        intro c hc
        rw [show '[' :: body ++ [']'] = ('[' :: body) ++ [']'] from rfl,
          List.getLast?_append_of_ne_nil _ (by simp)] at hc
        simp at hc; subst hc; decide)
    simpa [List.append_assoc] using this
  rw [jsonUnmarshalInts_of_trim _ body htrim]
  rcases hbody with ⟨rfl, hws⟩ | ⟨hne, pieces, rfl, hall⟩
  · rw [if_pos (List.all_eq_true.2 hws)]
    rfl
  · have hpne : pieces ≠ [] := by
      rintro rfl
      cases hall
      exact hne rfl
    have hnc : ∀ piece ∈ pieces, ',' ∉ piece := by
      intro piece hp
      obtain ⟨v, hv⟩ := forall₂_exists_of_mem hall hp
      exact (decodeElem_of_IsJSONElem _ _ hv).2.1
    have hns : ¬ (([','].intercalate pieces).all isJSONSpace = true) := by
      cases pieces with
      | nil => exact absurd rfl hpne
      | cons piece rest =>
        cases hall with
        | cons hd _ =>
          obtain ⟨c, hc, hcs⟩ := (decodeElem_of_IsJSONElem _ _ hd).2.2
          intro hallsp
          have hmem : c ∈ [','].intercalate (piece :: rest) := by
            cases rest with
            | nil => simpa [List.intercalate] using hc
            | cons r rs => simp [List.intercalate, List.intersperse, hc]
          have := List.all_eq_true.1 hallsp c hmem
          rw [hcs] at this
          cases this
    rw [if_neg hns, List.splitOn_intercalate pieces ',' hnc hpne]
    exact decodeElems_of_forall₂ pieces vs hall

/-- Whatever `json.Unmarshal` accepts for `[]int` is the literal `null` or an
array of integers and `null`s. -/
theorem IsJSONArray_of_jsonUnmarshalInts (data : List Char) (l : List Int)
    (h : jsonUnmarshalInts data = some l) :
    IsJSONNull data ∨ ∃ vs, IsJSONArray data vs ∧ l = vs.map (fun v => v.getD 0) := by
  obtain ⟨w0, w3, hd, h0, h3⟩ := trimBoth_decomp isJSONSpace data
  unfold jsonUnmarshalInts at h
  generalize trimBoth isJSONSpace data = t at h hd
  simp only at h
  split at h
  · rename_i hnull
    left
    exact ⟨w0, w3, by rw [hd, hnull], h0, h3⟩
  · right
    split at h
    · rename_i rest hnn
      split at h
      · rename_i body hrev
        have hrest : rest = body.reverse ++ [']'] := by
          have := congrArg List.reverse hrev
          simpa using this
        have hdata : data = w0 ++ '[' :: body.reverse ++ ']' :: w3 := by
          rw [hd, hrest]; simp
        split at h
        · rename_i hsp
          cases h
          refine ⟨[], ⟨w0, body.reverse, w3, hdata, h0, h3, Or.inl ⟨rfl, ?_⟩⟩, rfl⟩
          intro c hc
          exact List.all_eq_true.1 hsp c (List.mem_reverse.1 hc)
        · obtain ⟨vs, hvs, hl⟩ := forall₂_of_decodeElems _ l h
          refine ⟨vs, ⟨w0, body.reverse, w3, hdata, h0, h3, Or.inr ⟨?_, _, ?_, hvs⟩⟩, hl⟩
          · rintro rfl
            cases hvs' : body.reverse.splitOn ',' with
            | nil => exact absurd hvs' (List.splitOnP_ne_nil _ _)
            | cons a b => rw [hvs'] at hvs; cases hvs
          · exact (List.intercalate_splitOn _ _).symm
      · cases h
    · cases h

/-! ### The processed store: round trip -/

theorem literal_of_head_digit (ds : List Char) (h : ∀ c, ds.head? = some c → c.isDigit = true) :
    isJSONIntLiteral ds = isJSONNatLiteral ds ∧ intLitValue ds = (decVal ds : Int) := by
  have hm : ∀ rest, ds ≠ '-' :: rest := by
    rintro rest rfl
    exact absurd (h '-' rfl) (by decide)
  constructor
  · unfold isJSONIntLiteral
    split
    · rename_i rest; exact absurd rfl (hm rest)
    · rfl
  · unfold intLitValue
    split
    · rename_i rest; exact absurd rfl (hm rest)
    · rfl

theorem FormatInt_literal (n : Int) :
    isJSONIntLiteral (FormatInt n) = true ∧ intLitValue (FormatInt n) = n := by
  unfold FormatInt
  split
  · rename_i hneg
    refine ⟨isJSONNatLiteral_formatNat _, ?_⟩
    show -(decVal (formatNat n.natAbs) : Int) = n
    rw [decVal_formatNat]
    omega
  · rename_i hpos
    have hhead : ∀ c, (formatNat n.toNat).head? = some c → c.isDigit = true :=
      fun c hc => formatNat_digits _ c (List.mem_of_mem_head? hc)
    obtain ⟨h1, h2⟩ := literal_of_head_digit _ hhead
    refine ⟨by rw [h1]; exact isJSONNatLiteral_formatNat _, ?_⟩
    rw [h2, decVal_formatNat]
    omega

theorem IsJSONElem_FormatInt (n : Int) (h : minInt ≤ n ∧ n ≤ maxInt) :
    IsJSONElem (FormatInt n) (some n) := by
  obtain ⟨h1, h2⟩ := FormatInt_literal n
  refine ⟨[], FormatInt n, [], by simp, by simp [IsJSONWs], by simp [IsJSONWs], Or.inr ?_⟩
  rw [h2]
  exact ⟨h1, rfl, h.1, h.2⟩

/-- What `json.Marshal` writes for a non-empty list of `int`s is a valid
serialization of that list. -/
theorem IsJSONIntArray_jsonMarshalInts (l : List Int) (hne : l ≠ [])
    (h : ∀ x ∈ l, minInt ≤ x ∧ x ≤ maxInt) : IsJSONIntArray (jsonMarshalInts l) l := by
  refine ⟨[], [','].intercalate (l.map FormatInt), [], ?_, by simp [IsJSONWs],
    by simp [IsJSONWs], Or.inr ⟨by simpa using hne, l.map FormatInt, rfl, ?_⟩⟩
  · cases l with
    | nil => exact absurd rfl hne
    | cons a as => simp [jsonMarshalInts]
  · rw [List.forall₂_map_left_iff, List.forall₂_map_right_iff]
    exact List.forall₂_same.2 (fun x hx => IsJSONElem_FormatInt x (h x hx))

theorem jsonUnmarshalInts_of_IsJSONIntArray (data : List Char) (l : List Int)
    (h : IsJSONIntArray data l) : jsonUnmarshalInts data = some l := by
  have := jsonUnmarshalInts_of_IsJSONArray data (l.map some) h
  simpa [List.map_map, Function.comp_def] using this

theorem jsonMarshalInts_ne_nil (l : List Int) : jsonMarshalInts l ≠ [] := by
  cases l with
  | nil => decide
  | cons a as => simp [jsonMarshalInts]

theorem mem_foldl_mapInsert (tasks acc : List Int) (x : Int) :
    x ∈ tasks.foldl mapInsert acc ↔ x ∈ acc ∨ x ∈ tasks := by
  induction tasks generalizing acc with
  | nil => simp
  | cons t ts ih =>
    rw [List.foldl_cons, ih, mem_mapInsert]
    simp only [List.mem_cons]
    tauto

/-- Loading a present file whose content decodes to `tasks`. -/
theorem LoadProcessedTasks_of_decoded (st : Store) (data : List Char) (tasks : List Int)
    (hl : st.processedLoaded = false)
    (hdec : (if data.length > 0 then jsonUnmarshalInts data else some []) = some tasks) :
    LoadProcessedTasks st (File.content data) =
      (⟨tasks.foldl mapInsert [], true⟩, none) := by
  unfold LoadProcessedTasks
  simp only [hl, Bool.false_eq_true, if_false]
  rw [hdec]

/-- Loading a present file whose content is rejected by the decoder. -/
theorem LoadProcessedTasks_of_rejected (st : Store) (data : List Char)
    (hl : st.processedLoaded = false)
    (hdec : (if data.length > 0 then jsonUnmarshalInts data else some []) = none) :
    LoadProcessedTasks st (File.content data) = (⟨[], false⟩, some StoreError.unmarshal) := by
  unfold LoadProcessedTasks
  simp only [hl, Bool.false_eq_true, if_false]
  rw [hdec]

theorem WriteFile_success (file : File) (data : List Char) (w : WriteOutcome)
    (h : (WriteFile file data w).2 = none) : (WriteFile file data w).1 = File.content data := by
  cases w with
  | ok => rfl
  | openFails => simp [WriteFile] at h
  | writeFails k => simp [WriteFile] at h

/-- C6: after a successful `MarkAsProcessed(taskID)`, whatever the backing file
held before and in whatever order the map was written, `LoadProcessedTasks` on a
store that is not yet loaded succeeds and yields exactly the previous processed
set together with `taskID`. -/
theorem MarkAsProcessed_then_fresh_Load (rangeOrder : List Int → List Int)
    (hord : IsRangeOrder rangeOrder) (st fresh : Store) (taskID : Int) (prev : File)
    (w : WriteOutcome)
    (hrange : ∀ x ∈ st.processedTasks, minInt ≤ x ∧ x ≤ maxInt)
    (hid : minInt ≤ taskID ∧ taskID ≤ maxInt)
    (hmark : (MarkAsProcessed rangeOrder taskID st prev w).2.2 = none)
    (hfresh : fresh.processedLoaded = false) :
    (LoadProcessedTasks fresh (MarkAsProcessed rangeOrder taskID st prev w).2.1).2 = none ∧
      (LoadProcessedTasks fresh
        (MarkAsProcessed rangeOrder taskID st prev w).2.1).1.processedLoaded = true ∧
      (∀ x : Int, IsProcessed (LoadProcessedTasks fresh
          (MarkAsProcessed rangeOrder taskID st prev w).2.1).1 x = true ↔
        (IsProcessed st x = true ∨ x = taskID)) ∧
      (∀ x : Int, x ∈ GetProcessedTasks rangeOrder (LoadProcessedTasks fresh
          (MarkAsProcessed rangeOrder taskID st prev w).2.1).1 ↔
        (x ∈ st.processedTasks ∨ x = taskID)) := by
  have hfile : (MarkAsProcessed rangeOrder taskID st prev w).2.1 =
      File.content (jsonMarshalInts (rangeOrder (mapInsert st.processedTasks taskID))) :=
    WriteFile_success _ _ _ hmark
  have hperm := hord (mapInsert st.processedTasks taskID)
  have hmem : ∀ x, x ∈ rangeOrder (mapInsert st.processedTasks taskID) ↔
      (x ∈ st.processedTasks ∨ x = taskID) := fun x => by rw [hperm.mem_iff, mem_mapInsert]
  have hne : rangeOrder (mapInsert st.processedTasks taskID) ≠ [] :=
    List.ne_nil_of_mem ((hmem taskID).2 (Or.inr rfl))
  have hr : ∀ x ∈ rangeOrder (mapInsert st.processedTasks taskID), minInt ≤ x ∧ x ≤ maxInt := by
    intro x hx
    rcases (hmem x).1 hx with h | rfl
    · exact hrange x h
    · exact hid
  have hdec := jsonUnmarshalInts_of_IsJSONIntArray _ _ (IsJSONIntArray_jsonMarshalInts _ hne hr)
  have hlen : (jsonMarshalInts (rangeOrder (mapInsert st.processedTasks taskID))).length > 0 :=
    List.length_pos.2 (jsonMarshalInts_ne_nil _)
  rw [hfile, LoadProcessedTasks_of_decoded fresh _ _ hfresh (by rw [if_pos hlen, hdec])]
  refine ⟨rfl, rfl, fun x => ?_, fun x => ?_⟩
  · rw [IsProcessed_iff, IsProcessed_iff]
    simp only [mem_foldl_mapInsert, List.not_mem_nil, false_or]
    exact hmem x
  · unfold GetProcessedTasks
    rw [(hord _).mem_iff]
    simp only [mem_foldl_mapInsert, List.not_mem_nil, false_or]
    exact hmem x

/-- The example of the specification: `Mark(5); Mark(7)` writes `[7,5]` when the keys are
visited in reverse order, and a load into a store that is not yet loaded gives the set `{5,
7}`. -/
theorem MarkAsProcessed_then_fresh_Load_witness :
    IsRangeOrder List.reverse ∧
    (MarkAsProcessed List.reverse 7
      (MarkAsProcessed List.reverse 5 ⟨[], false⟩ File.absent WriteOutcome.ok).1
      (MarkAsProcessed List.reverse 5 ⟨[], false⟩ File.absent WriteOutcome.ok).2.1
      WriteOutcome.ok).2.1 = File.content "[7,5]".toList ∧
    (LoadProcessedTasks ⟨[], false⟩ (File.content "[7,5]".toList)).1 = ⟨[7, 5], true⟩ ∧
    ((LoadProcessedTasks ⟨[], false⟩ (MarkAsProcessed List.reverse 7 ⟨[5], false⟩
        (File.content "[5]".toList) WriteOutcome.ok).2.1).2 = none ∧
      (LoadProcessedTasks ⟨[], false⟩ (MarkAsProcessed List.reverse 7 ⟨[5], false⟩
        (File.content "[5]".toList) WriteOutcome.ok).2.1).1.processedLoaded = true ∧
      (∀ x : Int, IsProcessed (LoadProcessedTasks ⟨[], false⟩
          (MarkAsProcessed List.reverse 7 ⟨[5], false⟩
            (File.content "[5]".toList) WriteOutcome.ok).2.1).1 x = true ↔
        (IsProcessed ⟨[5], false⟩ x = true ∨ x = 7)) ∧
      (∀ x : Int, x ∈ GetProcessedTasks List.reverse (LoadProcessedTasks ⟨[], false⟩
          (MarkAsProcessed List.reverse 7 ⟨[5], false⟩
            (File.content "[5]".toList) WriteOutcome.ok).2.1).1 ↔
        (x ∈ (⟨[5], false⟩ : Store).processedTasks ∨ x = 7))) :=
  ⟨fun l => List.reverse_perm l, by decide, by decide,
    MarkAsProcessed_then_fresh_Load List.reverse (fun l => List.reverse_perm l) ⟨[5], false⟩
      ⟨[], false⟩ 7 (File.content "[5]".toList) WriteOutcome.ok (by decide) (by decide)
      (by decide) (by decide)⟩

/-! ### The processed store: malformed content -/

theorem jsonUnmarshalInts_of_IsJSONNull (data : List Char) (h : IsJSONNull data) :
    jsonUnmarshalInts data = some [] := by
  obtain ⟨w0, w3, rfl, h0, h3⟩ := h
  unfold jsonUnmarshalInts
  simp only
  rw [trimBoth_sandwich isJSONSpace w0 "null".toList w3 h0 h3 (by decide) (by decide) (by decide)]
  rw [if_pos rfl]

/-- C8 (amended): for a store that is not yet loaded and a present, readable
backing file, `LoadProcessedTasks` returns a failure and does not mark the store
as loaded whenever the content is neither empty, nor the JSON literal `null`,
nor a JSON array whose elements are integers of the `int` range or `null`; it
succeeds with the empty set on empty content and on `null`; and when the content
is a valid serialization of a list of integers, it succeeds, marks the store as
loaded, and the processed set becomes exactly the set of the list's elements. -/
theorem LoadProcessedTasks_on_content (st : Store) (data : List Char)
    (hl : st.processedLoaded = false) :
    ((data ≠ [] ∧ ¬ IsJSONNull data ∧ ¬ ∃ vs, IsJSONArray data vs) →
        (LoadProcessedTasks st (File.content data)).2 = some StoreError.unmarshal ∧
        (LoadProcessedTasks st (File.content data)).1.processedLoaded = false) ∧
      ((data = [] ∨ IsJSONNull data) →
        LoadProcessedTasks st (File.content data) = (⟨[], true⟩, none)) ∧
      (∀ l : List Int, IsJSONIntArray data l →
        (LoadProcessedTasks st (File.content data)).2 = none ∧
        (LoadProcessedTasks st (File.content data)).1.processedLoaded = true ∧
        ∀ x : Int, IsProcessed (LoadProcessedTasks st (File.content data)).1 x = true ↔ x ∈ l) := by
  refine ⟨?_, ?_, ?_⟩
  · rintro ⟨hne, hnull, harr⟩
    have hlen : data.length > 0 := List.length_pos.2 hne
    have hdec : jsonUnmarshalInts data = none := by
      cases hd : jsonUnmarshalInts data with
      | none => rfl
      | some l =>
        rcases IsJSONArray_of_jsonUnmarshalInts data l hd with h | ⟨vs, h, -⟩
        · exact absurd h hnull
        · exact absurd ⟨vs, h⟩ harr
    rw [LoadProcessedTasks_of_rejected st data hl (by rw [if_pos hlen, hdec])]
    exact ⟨rfl, rfl⟩
  · rintro (rfl | hnull)
    · exact LoadProcessedTasks_of_decoded st [] [] hl rfl
    · have hdec := jsonUnmarshalInts_of_IsJSONNull data hnull
      exact LoadProcessedTasks_of_decoded st data [] hl (by rw [hdec]; split <;> rfl)
  · intro l harr
    have hdec := jsonUnmarshalInts_of_IsJSONIntArray data l harr
    have hlen : data.length > 0 := by
      obtain ⟨w0, body, w3, rfl, -⟩ := harr
      simp
    rw [LoadProcessedTasks_of_decoded st data l hl (by rw [if_pos hlen, hdec])]
    refine ⟨rfl, rfl, fun x => ?_⟩
    rw [IsProcessed_iff]
    simp only [mem_foldl_mapInsert, List.not_mem_nil, false_or]

/-- A truncated array is rejected and leaves the store not loaded; the array `[5, 7]`, with
or without whitespace around it, loads as the set `{5, 7}`. -/
theorem LoadProcessedTasks_on_content_witness :
    (⟨[9], false⟩ : Store).processedLoaded = false ∧
    LoadProcessedTasks ⟨[9], false⟩ (File.content "[5, 7".toList) =
      (⟨[], false⟩, some StoreError.unmarshal) ∧
    LoadProcessedTasks ⟨[9], false⟩ (File.content "[5, 7]".toList) = (⟨[5, 7], true⟩, none) ∧
    (((" [5,7] ".toList ≠ [] ∧ ¬ IsJSONNull " [5,7] ".toList ∧
          ¬ ∃ vs, IsJSONArray " [5,7] ".toList vs) →
        (LoadProcessedTasks ⟨[9], false⟩ (File.content " [5,7] ".toList)).2 =
          some StoreError.unmarshal ∧
        (LoadProcessedTasks ⟨[9], false⟩
          (File.content " [5,7] ".toList)).1.processedLoaded = false) ∧
      ((" [5,7] ".toList = [] ∨ IsJSONNull " [5,7] ".toList) →
        LoadProcessedTasks ⟨[9], false⟩ (File.content " [5,7] ".toList) = (⟨[], true⟩, none)) ∧
      (∀ l : List Int, IsJSONIntArray " [5,7] ".toList l →
        (LoadProcessedTasks ⟨[9], false⟩ (File.content " [5,7] ".toList)).2 = none ∧
        (LoadProcessedTasks ⟨[9], false⟩
          (File.content " [5,7] ".toList)).1.processedLoaded = true ∧
        ∀ x : Int, IsProcessed (LoadProcessedTasks ⟨[9], false⟩
          (File.content " [5,7] ".toList)).1 x = true ↔ x ∈ l)) :=
  ⟨rfl, by decide, by decide,
    LoadProcessedTasks_on_content ⟨[9], false⟩ " [5,7] ".toList rfl⟩

/-- An empty file is not a JSON array of integers, yet loading it succeeds and marks the
store as loaded. -/
theorem LoadProcessedTasks_accepts_empty_file :
    (¬ ∃ l : List Int, IsJSONIntArray [] l) ∧
    (LoadProcessedTasks ⟨[], false⟩ (File.content [])).2 = none ∧
    (LoadProcessedTasks ⟨[], false⟩ (File.content [])).1.processedLoaded = true := by
  refine ⟨?_, by decide, by decide⟩
  rintro ⟨l, w0, body, w3, h, -⟩
  simp at h


/-! ### The acquisition cascade: order and short-circuit -/

theorem runSucceeded_iff (r : RunResult) : runSucceeded r = true ↔ Succeeds r := by
  unfold runSucceeded Succeeds
  simp [Option.isNone_iff_eq_none, List.isEmpty_iff]

theorem attemptLoop_two (run : Nat → RunResult) (event : Nat → Nat → FetchEvent) (a b : Nat) :
    attemptLoop run event 0 [a, b] =
      if runSucceeded (run 0) then (some (run 0).solvedText, [event 0 a])
      else if runSucceeded (run 1) then
        (some (run 1).solvedText, [event 0 a, FetchEvent.sleep 1, event 1 b])
      else (none, [event 0 a, FetchEvent.sleep 1, event 1 b, FetchEvent.sleep 2]) := by
  simp only [attemptLoop]
  split
  · rfl
  · split <;> rfl

/-- The five ways `FetchSolvedText` can go. -/
theorem FetchSolvedText_cases (env : FetchEnv) :
    (Succeeds (env.selector 0) →
        FetchSolvedText env = ⟨((env.selector 0).solvedText, none),
          [FetchEvent.selectorRun 0 25]⟩) ∧
      (¬ Succeeds (env.selector 0) → Succeeds (env.selector 1) →
        FetchSolvedText env = ⟨((env.selector 1).solvedText, none),
          [FetchEvent.selectorRun 0 25, FetchEvent.sleep 1, FetchEvent.selectorRun 1 35]⟩) ∧
      (¬ Succeeds (env.selector 0) → ¬ Succeeds (env.selector 1) → Succeeds (env.jsScan 0) →
        FetchSolvedText env = ⟨((env.jsScan 0).solvedText, none),
          [FetchEvent.selectorRun 0 25, FetchEvent.sleep 1, FetchEvent.selectorRun 1 35,
            FetchEvent.sleep 2, FetchEvent.jsScanRun 0 30]⟩) ∧
      (¬ Succeeds (env.selector 0) → ¬ Succeeds (env.selector 1) → ¬ Succeeds (env.jsScan 0) →
        Succeeds (env.jsScan 1) →
        FetchSolvedText env = ⟨((env.jsScan 1).solvedText, none),
          [FetchEvent.selectorRun 0 25, FetchEvent.sleep 1, FetchEvent.selectorRun 1 35,
            FetchEvent.sleep 2, FetchEvent.jsScanRun 0 30, FetchEvent.sleep 1,
            FetchEvent.jsScanRun 1 40]⟩) ∧
      (NoBrowserSuccess env →
        FetchSolvedText env = ⟨httpTier env.http,
          [FetchEvent.selectorRun 0 25, FetchEvent.sleep 1, FetchEvent.selectorRun 1 35,
            FetchEvent.sleep 2, FetchEvent.jsScanRun 0 30, FetchEvent.sleep 1,
            FetchEvent.jsScanRun 1 40, FetchEvent.sleep 2, FetchEvent.httpGet]⟩) := by
  unfold NoBrowserSuccess
  simp only [← runSucceeded_iff, Bool.not_eq_true]
  unfold FetchSolvedText
  simp only [attemptLoop_two]
  refine ⟨?_, ?_, ?_, ?_, ?_⟩
  · intro h0
    simp only [h0, if_true]
  · intro h0 h1
    simp only [h0, h1, Bool.false_eq_true, if_true, if_false]
  · intro h0 h1 h2
    simp only [h0, h1, h2, Bool.false_eq_true, if_true, if_false]
    rfl
  · intro h0 h1 h2 h3
    simp only [h0, h1, h2, h3, Bool.false_eq_true, if_true, if_false]
    rfl
  · rintro ⟨h0, h1, h2, h3⟩
    simp only [h0, h1, h2, h3, Bool.false_eq_true, if_false]
    rfl

/-! ### The acquisition cascade: the raw HTTP tier -/

theorem isDigit_cases (c : Char) (h : c.isDigit = true) :
    c ∈ ['0', '1', '2', '3', '4', '5', '6', '7', '8', '9'] := by
  have h1 : 48 ≤ c.toNat ∧ c.toNat ≤ 57 := by
    simp only [Char.isDigit, Bool.and_eq_true, decide_eq_true_eq] at h
    exact ⟨h.1, h.2⟩
  have hc : c = Char.ofNat c.toNat := (Char.ofNat_toNat c).symm
  obtain ⟨h48, h57⟩ := h1
  rw [hc]
  generalize c.toNat = n at h48 h57
  interval_cases n <;> decide

theorem isSpace_of_isDigit (c : Char) (h : c.isDigit = true) : isSpace c = false := by
  have := isDigit_cases c h
  simp only [List.mem_cons, List.mem_singleton, List.not_mem_nil, or_false] at this
  rcases this with rfl | rfl | rfl | rfl | rfl | rfl | rfl | rfl | rfl | rfl <;> decide

theorem TrimSpace_ne_nil_of_head (c : Char) (rest : List Char) (h : isSpace c = false) :
    TrimSpace (c :: rest) ≠ [] := by
  unfold TrimSpace trimBoth
  rw [dropWhile_eq_self_of_head (c :: rest) (by intro d hd; simp at hd; subst hd; exact h)]
  intro hnil
  have h1 : (c :: rest).reverse.dropWhile isSpace = [] := by
    simpa using congrArg List.reverse hnil
  rw [List.dropWhile_eq_nil_iff] at h1
  have := h1 c (by simp)
  rw [h] at this
  cases this

theorem Join_head (c : Char) (r : List Char) (elems : List (List Char)) (sep : List Char) :
    ∃ rest, Join ((c :: r) :: elems) sep = c :: rest := by
  cases elems with
  | nil => exact ⟨r, by simp [Join, List.intercalate]⟩
  | cons e es => exact ⟨_, by simp [Join, List.intercalate, List.intersperse]; rfl⟩

/-- A non-empty list of non-empty digit strings joins to a text that starts
with a digit. -/
theorem Join_digits_head (elems : List (List Char)) (sep : List Char) (hlen : elems.length > 0)
    (h : ∀ e ∈ elems, e ≠ [] ∧ ∀ c ∈ e, c.isDigit = true) :
    ∃ c rest, Join elems sep = c :: rest ∧ c.isDigit = true := by
  cases elems with
  | nil => simp at hlen
  | cons e es =>
    obtain ⟨hne, hd⟩ := h e (by simp)
    cases e with
    | nil => exact absurd rfl hne
    | cons c r =>
      obtain ⟨rest, hrest⟩ := Join_head c r es sep
      exact ⟨c, rest, hrest, hd c (by simp)⟩

theorem findAllDigits_elems (s : List Char) :
    ∀ e ∈ findAllDigits s, e ≠ [] ∧ ∀ c ∈ e, c.isDigit = true := by
  intro e he
  have := (mem_findAllDigits s e).1 he
  exact ⟨this.1, this.2.1⟩

theorem findAllDigits_eq_nil_of_NoDigit (s : List Char) (h : NoDigit s) :
    findAllDigits s = [] := by
  apply List.eq_nil_iff_forall_not_mem.2
  intro r hr
  obtain ⟨hne, hall, pre, post, hs, -, -⟩ := (mem_findAllDigits s r).1 hr
  cases r with
  | nil => exact hne rfl
  | cons c cs =>
    have h1 := hall c (by simp)
    have h2 := h c (by rw [hs]; simp)
    rw [h1] at h2
    cases h2

theorem matchLiteral_suffix (pat text rest : List Char) (h : matchLiteral pat text = some rest) :
    rest <:+ text := by
  induction pat generalizing text with
  | nil => simp only [matchLiteral, Option.some.injEq] at h; exact h ▸ List.suffix_refl _
  | cons p ps ih =>
    cases text with
    | nil => simp [matchLiteral] at h
    | cons c cs =>
      rw [matchLiteral] at h
      split at h
      · exact (ih cs h).trans (List.suffix_cons c cs)
      · cases h

theorem matchFold_suffix (pat text rest : List Char) (h : matchFold pat text = some rest) :
    rest <:+ text := by
  induction pat generalizing text with
  | nil => simp only [matchFold, Option.some.injEq] at h; exact h ▸ List.suffix_refl _
  | cons p ps ih =>
    cases text with
    | nil => simp [matchFold] at h
    | cons c cs =>
      rw [matchFold] at h
      split at h
      · exact (ih cs h).trans (List.suffix_cons c cs)
      · cases h

theorem lazyUntilClose_initial (text m : List Char) (h : lazyUntilClose text = some m) :
    m <+: text := by
  induction text generalizing m with
  | nil => simp [lazyUntilClose] at h
  | cons c cs ih =>
    rw [lazyUntilClose] at h
    split at h
    · cases h; exact List.nil_prefix
    · cases hl : lazyUntilClose cs with
      | none => rw [hl] at h; cases h
      | some m' =>
        rw [hl] at h
        simp only [Option.map_some', Option.some.injEq] at h
        subst h
        exact (List.prefix_cons_inj c).2 (ih m' hl)

theorem matchSectionWith_mem (kws : List (List Char)) (text m : List Char)
    (h : matchSectionWith kws text = some m) : ∀ c ∈ m, c ∈ text := by
  induction kws with
  | nil => simp [matchSectionWith] at h
  | cons kw kws ih =>
    rw [matchSectionWith] at h
    split at h
    · rename_i m' hm
      cases h
      obtain ⟨rest, hrest, hlazy⟩ := Option.bind_eq_some.1 hm
      intro c hc
      exact (matchFold_suffix kw text rest hrest).subset
        ((lazyUntilClose_initial rest m hlazy).subset hc)
    · exact ih h

theorem findSection_mem (body m : List Char) (h : findSection body = some m) :
    ∀ c ∈ m, c ∈ body := by
  induction body with
  | nil => simp [findSection] at h
  | cons c cs ih =>
    rw [findSection] at h
    split at h
    · rename_i m' hm
      cases h
      exact matchSectionWith_mem _ _ _ hm
    · intro d hd
      exact List.mem_cons_of_mem _ (ih h d hd)

/-- A match of the anchor pattern captures between one and six digits of the
text. -/
theorem matchAnchorAt_digits (text digits rest : List Char)
    (h : matchAnchorAt text = some (digits, rest)) :
    digits ≠ [] ∧ (∀ c ∈ digits, c.isDigit = true) ∧ ∀ c ∈ digits, c ∈ text := by
  unfold matchAnchorAt at h
  split at h
  · cases h
  · rename_i t1 ht1
    split at h
    · cases h
    · rename_i x t3 ht3
      simp only at h
      split at h
      · rename_i hlen
        split at h
        · rename_i rest' hrest
          simp only [Option.some.injEq, Prod.mk.injEq] at h
          obtain ⟨hd, -⟩ := h
          subst hd
          refine ⟨?_, fun c hc => List.mem_takeWhile_imp hc, fun c hc => ?_⟩
          · intro hnil
            rw [hnil] at hlen
            simp at hlen
          · have h1 : c ∈ t3.dropWhile isReSpace := (List.takeWhile_prefix _).subset hc
            have h2 : c ∈ t3 := (List.dropWhile_suffix _).subset h1
            have h3 : c ∈ t1.dropWhile (fun c => c != '>') := by
              rw [ht3]; exact List.mem_cons_of_mem _ h2
            have h4 : c ∈ t1 := (List.dropWhile_suffix _).subset h3
            exact (matchLiteral_suffix _ _ _ ht1).subset h4
        · cases h
      · cases h

theorem findAllAnchorsAux_elems (fuel : Nat) (text : List Char) :
    ∀ e ∈ findAllAnchorsAux fuel text, e ≠ [] ∧ ∀ c ∈ e, c.isDigit = true := by
  induction fuel generalizing text with
  | zero => simp [findAllAnchorsAux]
  | succ fuel ih =>
    cases text with
    | nil => simp [findAllAnchorsAux]
    | cons c cs =>
      intro e he
      rw [findAllAnchorsAux] at he
      split at he
      · rename_i digits rest hm
        rcases List.mem_cons.1 he with rfl | he
        · obtain ⟨h1, h2, -⟩ := matchAnchorAt_digits _ _ _ hm
          exact ⟨h1, h2⟩
        · exact ih rest e he
      · exact ih cs e he

theorem findAllAnchorsAux_eq_nil_of_NoDigit (fuel : Nat) (text : List Char) (h : NoDigit text) :
    findAllAnchorsAux fuel text = [] := by
  induction fuel generalizing text with
  | zero => rfl
  | succ fuel ih =>
    cases text with
    | nil => rfl
    | cons c cs =>
      rw [findAllAnchorsAux]
      split
      · rename_i digits rest hm
        obtain ⟨h1, h2, h3⟩ := matchAnchorAt_digits _ _ _ hm
        cases digits with
        | nil => exact absurd rfl h1
        | cons d ds =>
          have := h d (h3 d (by simp))
          rw [h2 d (by simp)] at this
          cases this
      · exact ih cs (fun d hd => h d (List.mem_cons_of_mem _ hd))

theorem NoDigit_replaceNBSP (body : List Char) (h : NoDigit body) : NoDigit (replaceNBSP body) := by
  intro c hc
  unfold replaceNBSP at hc
  obtain ⟨d, hd, rfl⟩ := List.mem_map.1 hc
  split
  · decide
  · exact h d hd

/-- A document without digits yields the "not found" error. -/
theorem extractSolved_of_NoDigit (bodyBytes : List Char) (h : NoDigit bodyBytes) :
    extractSolved bodyBytes = ([], some notFoundError) := by
  have hb := NoDigit_replaceNBSP bodyBytes h
  unfold extractSolved
  simp only
  have hsec : (match findSection (replaceNBSP bodyBytes) with
      | some sectionText =>
        if (findAllDigits sectionText).length > 0 then
          some (Join (findAllDigits sectionText) " ".toList)
        else none
      | none => none) = none := by
    cases hf : findSection (replaceNBSP bodyBytes) with
    | none => rfl
    | some sectionText =>
      have hno : NoDigit sectionText := fun c hc => hb c (findSection_mem _ _ hf c hc)
      simp only [findAllDigits_eq_nil_of_NoDigit sectionText hno, List.length_nil, gt_iff_lt,
        lt_self_iff_false, if_false]
  rw [hsec]
  simp only [findAllAnchors, findAllAnchorsAux_eq_nil_of_NoDigit _ _ hb,
    findAllDigits_eq_nil_of_NoDigit _ hb, List.length_nil, gt_iff_lt, lt_self_iff_false, if_false,
    if_true]

/-- A text the HTTP tier returns without error starts with a digit. -/
theorem extractSolved_success (bodyBytes text : List Char)
    (h : extractSolved bodyBytes = (text, none)) :
    ∃ c rest, text = c :: rest ∧ c.isDigit = true := by
  unfold extractSolved at h
  simp only at h
  split at h
  · rename_i text' hsec
    simp only [Prod.mk.injEq, and_true] at h
    subst h
    split at hsec
    · rename_i sectionText hf
      split at hsec
      · rename_i hlen
        simp only [Option.some.injEq] at hsec
        rw [← hsec]
        exact Join_digits_head _ _ hlen (findAllDigits_elems sectionText)
      · cases hsec
    · cases hsec
  · split at h
    · rename_i hlen
      simp only [Prod.mk.injEq, and_true] at h
      rw [← h]
      exact Join_digits_head _ _ hlen (findAllAnchorsAux_elems _ _)
    · split at h
      · simp at h
      · rename_i hlen
        simp only [Prod.mk.injEq, and_true] at h
        rw [← h]
        exact Join_digits_head _ _ (by omega) (findAllDigits_elems _)

theorem httpTier_success (http : HTTPOutcome) (text : List Char)
    (h : httpTier http = (text, none)) : TrimSpace text ≠ [] := by
  have key : ∃ c rest, text = c :: rest ∧ c.isDigit = true := by
    unfold httpTier at h
    split at h
    · simp at h
    · split at h
      · simp at h
      · split at h
        · simp at h
        · exact extractSolved_success _ _ h
  obtain ⟨c, rest, rfl, hc⟩ := key
  exact TrimSpace_ne_nil_of_head c rest (isSpace_of_isDigit c hc)

theorem httpTier_of_NoDigit (http : HTTPOutcome)
    (h : ∀ statusCode status body, http = HTTPOutcome.response statusCode status body →
      NoDigit body.1) :
    (httpTier http).2 ≠ none ∧ (httpTier http).1 = [] ∧
      ∀ statusCode status bodyBytes,
        http = HTTPOutcome.response statusCode status (bodyBytes, none) → statusCode < 400 →
        httpTier http = ([], some notFoundError) := by
  cases http with
  | getFails err => simp [httpTier]
  | response statusCode status body =>
    have hno := h statusCode status body rfl
    by_cases hcode : statusCode ≥ 400
    · have hv : httpTier (HTTPOutcome.response statusCode status body) =
          ([], some ("http fallback returned status ".toList ++ status)) := by
        unfold httpTier
        simp only [hcode, if_true]
      rw [hv]
      refine ⟨by simp, rfl, ?_⟩
      intro s st b heq hlt
      cases heq
      omega
    · cases hb : body.2 with
      | some err =>
        have hv : httpTier (HTTPOutcome.response statusCode status body) = ([], some err) := by
          unfold httpTier
          simp only [hcode, if_false, hb]
        rw [hv]
        refine ⟨by simp, rfl, ?_⟩
        intro s st b heq _
        cases heq
        simp at hb
      | none =>
        have hv : httpTier (HTTPOutcome.response statusCode status body) =
            ([], some notFoundError) := by
          unfold httpTier
          simp only [hcode, if_false, hb, extractSolved_of_NoDigit body.1 hno]
        rw [hv]
        exact ⟨by simp, rfl, fun _ _ _ _ _ => rfl⟩

/-- C9: `FetchSolvedText` runs the structural-selector tier (two attempts), then
the scripted-scan tier (two attempts), then the raw HTTP tier, in that order,
and returns the text of the first browser attempt that finishes without error
with non-empty trimmed text, making no call after it; when no browser attempt
does, it returns what the HTTP tier returns, and a text the HTTP tier returns
without error has non-empty trimmed text as well.  When a selector attempt
succeeds, no scripted-scan run and no HTTP request is made. -/
theorem FetchSolvedText_order_and_short_circuit (env : FetchEnv) :
    (Succeeds (env.selector 0) →
        FetchSolvedText env = ⟨((env.selector 0).solvedText, none),
          [FetchEvent.selectorRun 0 25]⟩) ∧
      (¬ Succeeds (env.selector 0) → Succeeds (env.selector 1) →
        FetchSolvedText env = ⟨((env.selector 1).solvedText, none),
          [FetchEvent.selectorRun 0 25, FetchEvent.sleep 1, FetchEvent.selectorRun 1 35]⟩) ∧
      (¬ Succeeds (env.selector 0) → ¬ Succeeds (env.selector 1) → Succeeds (env.jsScan 0) →
        FetchSolvedText env = ⟨((env.jsScan 0).solvedText, none),
          [FetchEvent.selectorRun 0 25, FetchEvent.sleep 1, FetchEvent.selectorRun 1 35,
            FetchEvent.sleep 2, FetchEvent.jsScanRun 0 30]⟩) ∧
      (¬ Succeeds (env.selector 0) → ¬ Succeeds (env.selector 1) → ¬ Succeeds (env.jsScan 0) →
        Succeeds (env.jsScan 1) →
        FetchSolvedText env = ⟨((env.jsScan 1).solvedText, none),
          [FetchEvent.selectorRun 0 25, FetchEvent.sleep 1, FetchEvent.selectorRun 1 35,
            FetchEvent.sleep 2, FetchEvent.jsScanRun 0 30, FetchEvent.sleep 1,
            FetchEvent.jsScanRun 1 40]⟩) ∧
      (NoBrowserSuccess env →
        FetchSolvedText env = ⟨httpTier env.http,
          [FetchEvent.selectorRun 0 25, FetchEvent.sleep 1, FetchEvent.selectorRun 1 35,
            FetchEvent.sleep 2, FetchEvent.jsScanRun 0 30, FetchEvent.sleep 1,
            FetchEvent.jsScanRun 1 40, FetchEvent.sleep 2, FetchEvent.httpGet]⟩) ∧
      (∀ text, httpTier env.http = (text, none) → TrimSpace text ≠ []) ∧
      ((Succeeds (env.selector 0) ∨ Succeeds (env.selector 1)) →
        ∀ e ∈ (FetchSolvedText env).trace,
          (∀ attempt tmo, e ≠ FetchEvent.jsScanRun attempt tmo) ∧ e ≠ FetchEvent.httpGet) := by
  obtain ⟨h0, h1, h2, h3, h4⟩ := FetchSolvedText_cases env
  refine ⟨h0, h1, h2, h3, h4, fun text h => httpTier_success env.http text h, ?_⟩
  intro hsel e he
  by_cases hs0 : Succeeds (env.selector 0)
  · rw [h0 hs0] at he
    simp only [List.mem_singleton] at he
    subst he
    exact ⟨fun _ _ h => (by cases h), fun h => (by cases h)⟩
  · have hs1 : Succeeds (env.selector 1) := hsel.resolve_left hs0
    rw [h1 hs0 hs1] at he
    simp only [List.mem_cons, List.mem_singleton, List.not_mem_nil, or_false] at he
    rcases he with rfl | rfl | rfl <;> exact ⟨fun _ _ h => (by cases h), fun h => (by cases h)⟩

/-! ### The acquisition cascade: no digits anywhere -/

theorem ParseSolvedTasks_of_NoDigit (rangeOrder : List Int → List Int)
    (hord : IsRangeOrder rangeOrder) (s : List Char) (h : NoDigit s) :
    ParseSolvedTasks rangeOrder s = [] := by
  unfold ParseSolvedTasks
  simp only [findAllDigits_eq_nil_of_NoDigit s h, List.foldl_nil]
  have : rangeOrder [] = [] := List.Perm.eq_nil (hord [])
  rw [this]
  rfl

theorem mainSolved_of_success (rangeOrder : List Int → List Int)
    (hord : IsRangeOrder rangeOrder) (text : List Char) (h : NoDigit text) :
    mainSolved rangeOrder (text, none) = [] :=
  ParseSolvedTasks_of_NoDigit rangeOrder hord text h

theorem mainSolved_of_failure (rangeOrder : List Int → List Int)
    (hord : IsRangeOrder rangeOrder) (r : StrResult) (h : r.2 ≠ none) :
    mainSolved rangeOrder r = [] := by
  unfold mainSolved
  have : r.2.isSome = true := Option.isSome_iff_ne_none.2 h
  simp only [this, if_true]
  exact ParseSolvedTasks_of_NoDigit rangeOrder hord [] (fun _ hc => by cases hc)

/-- C10 (amended): when no tier produces any digit, the orchestrator continues
with an empty solved set.  `FetchSolvedText` returns a failure exactly when, in
addition, no browser attempt finishes without error with non-empty trimmed
text, and the failure is the "solved-list not found" error when the document
was fetched; when some browser attempt yields non-blank text,
`FetchSolvedText` returns that digit-free text without error. -/
theorem FetchSolvedText_without_digits (rangeOrder : List Int → List Int)
    (hord : IsRangeOrder rangeOrder) (env : FetchEnv) (hno : NoTierHasDigits env) :
    mainSolved rangeOrder (FetchSolvedText env).result = [] ∧
      (NoBrowserSuccess env →
        (FetchSolvedText env).result.2 ≠ none ∧
        ∀ statusCode status bodyBytes,
          env.http = HTTPOutcome.response statusCode status (bodyBytes, none) →
          statusCode < 400 → (FetchSolvedText env).result = ([], some notFoundError)) ∧
      (¬ NoBrowserSuccess env →
        (FetchSolvedText env).result.2 = none ∧ NoDigit (FetchSolvedText env).result.1) := by
  obtain ⟨hsel, hjs, hhttp⟩ := hno
  obtain ⟨h0, h1, h2, h3, h4⟩ := FetchSolvedText_cases env
  obtain ⟨ht1, ht2, ht3⟩ := httpTier_of_NoDigit env.http hhttp
  by_cases hs0 : Succeeds (env.selector 0)
  · rw [h0 hs0]
    exact ⟨mainSolved_of_success rangeOrder hord _ (hsel 0), fun hn => absurd hs0 hn.1,
      fun _ => ⟨rfl, hsel 0⟩⟩
  · by_cases hs1 : Succeeds (env.selector 1)
    · rw [h1 hs0 hs1]
      exact ⟨mainSolved_of_success rangeOrder hord _ (hsel 1), fun hn => absurd hs1 hn.2.1,
        fun _ => ⟨rfl, hsel 1⟩⟩
    · by_cases hj0 : Succeeds (env.jsScan 0)
      · rw [h2 hs0 hs1 hj0]
        exact ⟨mainSolved_of_success rangeOrder hord _ (hjs 0), fun hn => absurd hj0 hn.2.2.1,
          fun _ => ⟨rfl, hjs 0⟩⟩
      · by_cases hj1 : Succeeds (env.jsScan 1)
        · rw [h3 hs0 hs1 hj0 hj1]
          exact ⟨mainSolved_of_success rangeOrder hord _ (hjs 1),
            fun hn => absurd hj1 hn.2.2.2, fun _ => ⟨rfl, hjs 1⟩⟩
        · have hnone : NoBrowserSuccess env := ⟨hs0, hs1, hj0, hj1⟩
          rw [h4 hnone]
          exact ⟨mainSolved_of_failure rangeOrder hord _ ht1, fun _ => ⟨ht1, ht3⟩,
            fun hn => absurd hnone hn⟩

/-- Both selector runs time out, both scripted scans yield blank text and the fetched
document has no digit: the result is the error of line 151 after all five calls, and the
solved set is empty. -/
theorem FetchSolvedText_without_digits_witness :
    IsRangeOrder id ∧
    NoTierHasDigits ⟨fun _ => ⟨some "timeout".toList, []⟩, fun _ => ⟨none, "  ".toList⟩,
      HTTPOutcome.response 200 "OK".toList ("<p>Решенные задачи: нет</p>".toList, none)⟩ ∧
    FetchSolvedText ⟨fun _ => ⟨some "timeout".toList, []⟩, fun _ => ⟨none, "  ".toList⟩,
        HTTPOutcome.response 200 "OK".toList ("<p>Решенные задачи: нет</p>".toList, none)⟩ =
      ⟨([], some notFoundError),
        [FetchEvent.selectorRun 0 25, FetchEvent.sleep 1, FetchEvent.selectorRun 1 35,
          FetchEvent.sleep 2, FetchEvent.jsScanRun 0 30, FetchEvent.sleep 1,
          FetchEvent.jsScanRun 1 40, FetchEvent.sleep 2, FetchEvent.httpGet]⟩ ∧
    mainSolved id (FetchSolvedText ⟨fun _ => ⟨some "timeout".toList, []⟩,
      fun _ => ⟨none, "  ".toList⟩,
      HTTPOutcome.response 200 "OK".toList
        ("<p>Решенные задачи: нет</p>".toList, none)⟩).result = [] :=
  have hno : NoTierHasDigits ⟨fun _ => ⟨some "timeout".toList, []⟩,
      fun _ => ⟨none, "  ".toList⟩,
      HTTPOutcome.response 200 "OK".toList ("<p>Решенные задачи: нет</p>".toList, none)⟩ :=
    ⟨fun _ => show NoDigit [] from (by unfold NoDigit; decide),
      fun _ => show NoDigit "  ".toList from (by unfold NoDigit; decide),
      fun _ _ _ h => (by cases h; unfold NoDigit; decide)⟩
  ⟨fun _ => List.Perm.refl _, hno, by decide,
    (FetchSolvedText_without_digits id (fun _ => List.Perm.refl _) _ hno).1⟩

/-- No tier produces a digit, yet the first selector run yields non-blank text:
`FetchSolvedText` returns that text and no error. -/
theorem FetchSolvedText_returns_digit_free_text :
    NoTierHasDigits ⟨fun _ => ⟨none, "Решенные задачи: нет".toList⟩, fun _ => ⟨none, []⟩,
      HTTPOutcome.getFails []⟩ ∧
    FetchSolvedText ⟨fun _ => ⟨none, "Решенные задачи: нет".toList⟩, fun _ => ⟨none, []⟩,
        HTTPOutcome.getFails []⟩ =
      ⟨("Решенные задачи: нет".toList, none), [FetchEvent.selectorRun 0 25]⟩ ∧
    (FetchSolvedText ⟨fun _ => ⟨none, "Решенные задачи: нет".toList⟩, fun _ => ⟨none, []⟩,
        HTTPOutcome.getFails []⟩).result.2 = none :=
  ⟨⟨fun _ => show NoDigit "Решенные задачи: нет".toList from (by unfold NoDigit; decide),
      fun _ => show NoDigit [] from (by unfold NoDigit; decide),
      fun _ _ _ h => (by cases h)⟩, by decide, by decide⟩


/-! ### The scanners never run out of steps -/

theorem matchAnchorAt_rest_shorter (text digits rest : List Char)
    (h : matchAnchorAt text = some (digits, rest)) : rest.length < text.length := by
  unfold matchAnchorAt at h
  split at h
  · cases h
  · rename_i t1 ht1
    split at h
    · cases h
    · rename_i x t3 ht3
      simp only at h
      split at h
      · split at h
        · rename_i rest' hrest
          simp only [Option.some.injEq, Prod.mk.injEq] at h
          obtain ⟨-, hr⟩ := h
          subst hr
          have h1 := (matchLiteral_suffix _ _ _ hrest).length_le
          have h2 := (List.dropWhile_suffix isReSpace
            (l := (t3.dropWhile isReSpace).dropWhile Char.isDigit)).length_le
          have h3 := (List.dropWhile_suffix Char.isDigit (l := t3.dropWhile isReSpace)).length_le
          have h4 := (List.dropWhile_suffix isReSpace (l := t3)).length_le
          have h5 := (List.dropWhile_suffix (fun c => c != '>') (l := t1)).length_le
          rw [ht3, List.length_cons] at h5
          have h6 := (matchLiteral_suffix _ _ _ ht1).length_le
          omega
        · cases h
      · cases h

/-- The scanner for anchors gives the same matches for every number of steps
that is at least the length of the text. -/
theorem findAllAnchorsAux_steps (fuel fuel' : Nat) (text : List Char)
    (h : text.length ≤ fuel) (h' : text.length ≤ fuel') :
    findAllAnchorsAux fuel text = findAllAnchorsAux fuel' text := by
  induction fuel generalizing fuel' text with
  | zero =>
    have : text = [] := List.length_eq_zero.1 (Nat.le_zero.1 h)
    subst this
    cases fuel' <;> rfl
  | succ fuel ih =>
    cases text with
    | nil => cases fuel' <;> rfl
    | cons c cs =>
      cases fuel' with
      | zero => simp at h'
      | succ fuel' =>
        simp only [List.length_cons, Nat.add_le_add_iff_right] at h h'
        rw [findAllAnchorsAux, findAllAnchorsAux]
        cases hm : matchAnchorAt (c :: cs) with
        | none => exact ih fuel' cs h h'
        | some p =>
          obtain ⟨digits, rest⟩ := p
          have hlt := matchAnchorAt_rest_shorter _ _ _ hm
          simp only [List.length_cons] at hlt
          simp only
          rw [ih fuel' rest (by omega) (by omega)]

/-- The scanner for digit runs gives the same matches for every number of
steps that is at least the length of the text. -/
theorem findAllDigitsAux_steps (fuel fuel' : Nat) (s : List Char)
    (h : s.length ≤ fuel) (h' : s.length ≤ fuel') :
    findAllDigitsAux fuel s = findAllDigitsAux fuel' s := by
  induction fuel generalizing fuel' s with
  | zero =>
    have : s = [] := List.length_eq_zero.1 (Nat.le_zero.1 h)
    subst this
    cases fuel' <;> rfl
  | succ fuel ih =>
    cases s with
    | nil => cases fuel' <;> rfl
    | cons c cs =>
      cases fuel' with
      | zero => simp at h'
      | succ fuel' =>
        simp only [List.length_cons, Nat.add_le_add_iff_right] at h h'
        rw [findAllDigitsAux, findAllDigitsAux]
        have hd := (List.dropWhile_suffix Char.isDigit (l := cs)).length_le
        split
        · rw [ih fuel' _ (by omega) (by omega)]
        · exact ih fuel' cs h h'

/-- The digit formatter gives the same digits for every number of steps that
exceeds the number. -/
theorem formatNatAux_steps (fuel fuel' n : Nat) (h : n < fuel) (h' : n < fuel') :
    formatNatAux fuel n = formatNatAux fuel' n := by
  induction fuel generalizing fuel' n with
  | zero => omega
  | succ fuel ih =>
    cases fuel' with
    | zero => omega
    | succ fuel' =>
      rw [formatNatAux, formatNatAux]
      split
      · rfl
      · rw [ih fuel' (n / 10) (by omega) (by omega)]


/-! ### The processed store: what a write leaves in the file -/

/-- C11 (amended): a successful `MarkAsProcessed` leaves in the backing file a
complete valid serialization of the full set after the call; a call whose write
cannot open the file leaves the file as it was; a write that fails or stops
after the file was opened leaves a prefix of that serialization, which may be
empty or partial.  So at every point the file holds what it held before the call
or a prefix of the new serialization. -/
theorem MarkAsProcessed_file_after_call (rangeOrder : List Int → List Int)
    (hord : IsRangeOrder rangeOrder) (st : Store) (taskID : Int) (file : File)
    (w : WriteOutcome)
    (hrange : ∀ x ∈ st.processedTasks, minInt ≤ x ∧ x ≤ maxInt)
    (hid : minInt ≤ taskID ∧ taskID ≤ maxInt) :
    IsJSONIntArray (jsonMarshalInts (rangeOrder (mapInsert st.processedTasks taskID)))
        (rangeOrder (mapInsert st.processedTasks taskID)) ∧
      (∀ x : Int, x ∈ rangeOrder (mapInsert st.processedTasks taskID) ↔
        (x ∈ st.processedTasks ∨ x = taskID)) ∧
      ((MarkAsProcessed rangeOrder taskID st file w).2.2 = none →
        (MarkAsProcessed rangeOrder taskID st file w).2.1 =
          File.content (jsonMarshalInts (rangeOrder (mapInsert st.processedTasks taskID)))) ∧
      (w = WriteOutcome.openFails →
        (MarkAsProcessed rangeOrder taskID st file w).2.1 = file ∧
        (MarkAsProcessed rangeOrder taskID st file w).2.2 = some StoreError.write) ∧
      (∀ written, w = WriteOutcome.writeFails written →
        (MarkAsProcessed rangeOrder taskID st file w).2.1 =
          File.content ((jsonMarshalInts
            (rangeOrder (mapInsert st.processedTasks taskID))).take written) ∧
        (MarkAsProcessed rangeOrder taskID st file w).2.2 = some StoreError.write) ∧
      ((MarkAsProcessed rangeOrder taskID st file w).2.1 = file ∨
        ∃ written, (MarkAsProcessed rangeOrder taskID st file w).2.1 =
          File.content ((jsonMarshalInts
            (rangeOrder (mapInsert st.processedTasks taskID))).take written)) := by
  have hperm := hord (mapInsert st.processedTasks taskID)
  have hmem : ∀ x, x ∈ rangeOrder (mapInsert st.processedTasks taskID) ↔
      (x ∈ st.processedTasks ∨ x = taskID) := fun x => by rw [hperm.mem_iff, mem_mapInsert]
  have hne : rangeOrder (mapInsert st.processedTasks taskID) ≠ [] :=
    List.ne_nil_of_mem ((hmem taskID).2 (Or.inr rfl))
  have hr : ∀ x ∈ rangeOrder (mapInsert st.processedTasks taskID), minInt ≤ x ∧ x ≤ maxInt := by
    intro x hx
    rcases (hmem x).1 hx with h | rfl
    · exact hrange x h
    · exact hid
  refine ⟨IsJSONIntArray_jsonMarshalInts _ hne hr, hmem, fun h => WriteFile_success _ _ _ h,
    ?_, ?_, ?_⟩
  · rintro rfl
    exact ⟨rfl, rfl⟩
  · rintro written rfl
    exact ⟨rfl, rfl⟩
  · cases w with
    | ok =>
      right
      refine ⟨(jsonMarshalInts (rangeOrder (mapInsert st.processedTasks taskID))).length, ?_⟩
      rw [List.take_length]
      rfl
    | openFails => exact Or.inl rfl
    | writeFails written => exact Or.inr ⟨written, rfl⟩

/-- Marking 7 in the store `{5}` with a write that goes through leaves `[5,7]`
in the file, a valid serialization of `{5, 7}`. -/
theorem MarkAsProcessed_file_after_call_witness :
    IsRangeOrder id ∧
    (MarkAsProcessed id 7 ⟨[5], true⟩ (File.content "[5]".toList) WriteOutcome.ok).2.1 =
      File.content "[5,7]".toList ∧
    IsJSONIntArray (jsonMarshalInts (id (mapInsert [5] 7))) (id (mapInsert [5] 7)) ∧
    ((MarkAsProcessed id 7 ⟨[5], true⟩ (File.content "[5]".toList) WriteOutcome.ok).2.2 = none →
      (MarkAsProcessed id 7 ⟨[5], true⟩ (File.content "[5]".toList) WriteOutcome.ok).2.1 =
        File.content (jsonMarshalInts (id (mapInsert [5] 7)))) :=
  have h := MarkAsProcessed_file_after_call id (fun _ => List.Perm.refl _) ⟨[5], true⟩ 7
    (File.content "[5]".toList) WriteOutcome.ok (by decide) (by decide)
  ⟨fun _ => List.Perm.refl _, by decide, h.1, h.2.2.1⟩

/-- The store is `{5}` and the file holds `[5]`; the write of `MarkAsProcessed(7)`
stops after three characters.  The file then holds `[5,`, which is no
serialization of a list of integers and which `LoadProcessedTasks` rejects. -/
theorem MarkAsProcessed_interrupted_write_truncates :
    MarkAsProcessed id 7 ⟨[5], true⟩ (File.content "[5]".toList) (WriteOutcome.writeFails 3) =
      (⟨[5, 7], true⟩, File.content "[5,".toList, some StoreError.write) ∧
    (¬ ∃ l : List Int, IsJSONIntArray "[5,".toList l) ∧
    (LoadProcessedTasks ⟨[], false⟩ (File.content "[5,".toList)).2 =
      some StoreError.unmarshal := by
  refine ⟨by decide, ?_, by decide⟩
  rintro ⟨l, hl⟩
  have h1 := jsonUnmarshalInts_of_IsJSONIntArray _ _ hl
  have h2 : jsonUnmarshalInts "[5,".toList = none := by decide
  rw [h2] at h1
  cases h1

/-! ### Trimming of the generated text -/

theorem getLast?_dropWhile_eq (p : Char → Bool) (l : List Char) (c : Char)
    (h : (l.dropWhile p).getLast? = some c) : l.getLast? = some c := by
  have hne : l.dropWhile p ≠ [] := by
    intro hnil
    rw [hnil] at h
    cases h
  have hl : l = l.takeWhile p ++ l.dropWhile p := (List.takeWhile_append_dropWhile p l).symm
  rw [hl, List.getLast?_append_of_ne_nil _ hne]
  exact h

theorem trimBoth_head_not (p : Char → Bool) (s : List Char) :
    ∀ c, (trimBoth p s).head? = some c → p c = false := by
  intro c hc
  unfold trimBoth at hc
  rw [List.head?_reverse] at hc
  have h1 := getLast?_dropWhile_eq p _ c hc
  rw [List.getLast?_reverse] at h1
  exact head_dropWhile_not s c h1

theorem trimBoth_getLast_not (p : Char → Bool) (s : List Char) :
    ∀ c, (trimBoth p s).getLast? = some c → p c = false := by
  intro c hc
  unfold trimBoth at hc
  rw [List.getLast?_reverse] at hc
  exact head_dropWhile_not _ c hc

theorem trimBoth_idem (p : Char → Bool) (s : List Char) :
    trimBoth p (trimBoth p s) = trimBoth p s := by
  by_cases hne : trimBoth p s = []
  · rw [hne]; rfl
  · exact trimBoth_eq_self p _ hne (trimBoth_head_not p s) (trimBoth_getLast_not p s)

theorem TrimPrefix_append (pre rest : List Char) : TrimPrefix (pre ++ rest) pre = rest := by
  unfold TrimPrefix
  have h : pre.isPrefixOf (pre ++ rest) = true :=
    List.isPrefixOf_iff_prefix.2 (List.prefix_append pre rest)
  rw [if_pos h, List.drop_left]

theorem TrimSuffix_append (body suf : List Char) : TrimSuffix (body ++ suf) suf = body := by
  unfold TrimSuffix
  have h : suf.isSuffixOf (body ++ suf) = true :=
    List.isSuffixOf_iff_suffix.2 (List.suffix_append body suf)
  rw [if_pos h, List.length_append, Nat.add_sub_cancel, List.take_left]

theorem TrimPrefix_of_not (s pre : List Char) (h : pre.isPrefixOf s = false) :
    TrimPrefix s pre = s := by
  unfold TrimPrefix
  rw [h]
  rfl

theorem TrimSuffix_of_not (s suf : List Char) (h : suf.isSuffixOf s = false) :
    TrimSuffix s suf = s := by
  unfold TrimSuffix
  rw [h]
  rfl

/-- C12 (amended): the text the workflow submits has no surrounding whitespace,
and exactly one leading opening marker and one trailing closing marker are
removed.  For a generated text that consists of the opening marker, a body and
the closing marker of a code fence, with optional whitespace around, it is the
whitespace-trimmed body.  In terms of the whitespace-trimmed generated text the
four cases are: opening marker and, after it, a text ending in the closing
marker: the trimmed text between them; opening marker only: the trimmed text
after it; closing marker only: the trimmed text before it; neither marker: the
trimmed text itself. -/
theorem trimSolution_strips_one_cpp_fence (solution : List Char) :
    (∀ c, (trimSolution solution).head? = some c → isSpace c = false) ∧
      (∀ c, (trimSolution solution).getLast? = some c → isSpace c = false) ∧
      (∀ w1 body w2 : List Char, IsSpaces w1 → IsSpaces w2 →
        solution = w1 ++ (fenceOpen ++ body ++ fenceClose) ++ w2 →
        trimSolution solution = TrimSpace body) ∧
      (fenceOpen.isPrefixOf (TrimSpace solution) = false →
        fenceClose.isSuffixOf (TrimSpace solution) = false →
        trimSolution solution = TrimSpace solution) ∧
      (∀ body : List Char, TrimSpace solution = fenceOpen ++ (body ++ fenceClose) →
        trimSolution solution = TrimSpace body) ∧
      (∀ rest : List Char, TrimSpace solution = fenceOpen ++ rest →
        fenceClose.isSuffixOf rest = false →
        trimSolution solution = TrimSpace rest) ∧
      (∀ body : List Char, fenceOpen.isPrefixOf (TrimSpace solution) = false →
        TrimSpace solution = body ++ fenceClose →
        trimSolution solution = TrimSpace body) := by
  refine ⟨trimBoth_head_not isSpace _, trimBoth_getLast_not isSpace _, ?_, ?_, ?_, ?_, ?_⟩
  · rintro w1 body w2 h1 h2 rfl
    have htrim : TrimSpace (w1 ++ (fenceOpen ++ body ++ fenceClose) ++ w2) =
        fenceOpen ++ body ++ fenceClose := by
      apply trimBoth_sandwich isSpace w1 _ w2 h1 h2
      · simp [fenceOpen]
      · intro c hc
        have : c = '`' := by
          simpa [fenceOpen] using hc.symm
        subst this
        decide
      · intro c hc
        rw [List.getLast?_append_of_ne_nil _ (by simp [fenceClose])] at hc
        have : c = '`' := by
          simpa [fenceClose] using hc.symm
        subst this
        decide
    unfold trimSolution
    simp only
    rw [htrim, List.append_assoc, TrimPrefix_append, TrimSuffix_append]
  · intro hp hs
    unfold trimSolution
    simp only
    rw [TrimPrefix_of_not _ _ hp, TrimSuffix_of_not _ _ hs]
    exact trimBoth_idem isSpace solution
  · intro body h
    unfold trimSolution
    simp only
    rw [h, TrimPrefix_append, TrimSuffix_append]
  · intro rest h hs
    unfold trimSolution
    simp only
    rw [h, TrimPrefix_append, TrimSuffix_of_not _ _ hs]
  · intro body hp h
    unfold trimSolution
    simp only
    rw [TrimPrefix_of_not _ _ hp, h, TrimSuffix_append]

/-- A fenced answer is reduced to its body, an answer without a fence is only
trimmed of whitespace, and an answer with only the opening marker or only the
closing marker loses that marker. -/
theorem trimSolution_strips_one_cpp_fence_witness :
    trimSolution "  ```cpp\nint main(){}\n```\n".toList = "int main(){}".toList ∧
    trimSolution " int main(){} ".toList = "int main(){}".toList ∧
    trimSolution "```cpp\nint main(){}".toList = "int main(){}".toList ∧
    trimSolution "int main(){}\n```".toList = "int main(){}".toList ∧
    (∀ c, (trimSolution "  ```cpp\nint main(){}\n```\n".toList).head? = some c →
      isSpace c = false) ∧
    (∀ rest : List Char, TrimSpace "```cpp\nint main(){}".toList = fenceOpen ++ rest →
      fenceClose.isSuffixOf rest = false →
      trimSolution "```cpp\nint main(){}".toList = TrimSpace rest) :=
  ⟨by decide, by decide, by decide, by decide,
    (trimSolution_strips_one_cpp_fence "  ```cpp\nint main(){}\n```\n".toList).1,
    (trimSolution_strips_one_cpp_fence "```cpp\nint main(){}".toList).2.2.2.2.2.1⟩

/-- A fence without the language tag keeps its opening marker, and of a doubled
closing marker one copy stays: the submitted text then begins, respectively ends,
with the marker of three backquotes. -/
theorem trimSolution_keeps_other_fences :
    trimSolution "```\nint main(){}\n```".toList = "```\nint main(){}".toList ∧
    fenceClose.isPrefixOf (trimSolution "```\nint main(){}\n```".toList) = true ∧
    trimSolution "int main(){}\n``````".toList = "int main(){}\n```".toList ∧
    fenceClose.isSuffixOf (trimSolution "int main(){}\n``````".toList) = true := by
  decide

end Auto
